import Mathlib

/-!
# Verification of the pipg package installer against its specification

This file gives a shallow embedding, in Lean 4, of the core algorithms of the
pipg repository (a Go reimplementation of a Python package installer) and
proves or refutes the frozen claims about it.

Embedded components:
* the PEP 440 version algebra used by the resolver (the Go code delegates to
  the external `go-pep440-version` library, which is not part of the
  repository; that fragment is modelled from the specification),
* `MatchesAll` / `FindBestVersion` / `SortVersionsDesc` (resolver version
  selection),
* `ParseRequirement` / `NormalizeName` / `EvalMarker` (PEP 508 requirements
  and environment markers),
* the BFS dependency resolver `Resolve`,
* `availableVersions` (candidate versions from a PyPI releases map),
* `ParseWheelFilename` / `SelectWheel` (PEP 425 wheel selection),
* the retry/backoff loops of the PyPI client and the downloader,
* the single-download step `doDownload` with SHA-256 verification,
* the wheel installer extraction loop with zip-slip protection, and
* the wheel cache lookup `cacheGet`.

Go maps are modelled as association lists or update functions; Go's random
map-iteration order is replaced by insertion order (no claim below depends on
iteration order).  Filesystem and network effects are made explicit: oracles
describe the outcome of each network attempt, and write effects are returned
as lists of paths.
-/

namespace Pipg

/-! ## Basic character/string helpers shared by the embeddings

These model the exact Go standard-library operations used by the sources
(`strings.TrimSpace`, `strings.Index`, `strings.Contains`, ...) on ASCII
input.  They operate on `List Char` and are wrapped for `String`.
-/

/-- Whitespace as trimmed by `strings.TrimSpace` (ASCII fragment). -/
def isSpaceChar (c : Char) : Bool :=
  c = ' ' || c = '\t' || c = '\n' || c = '\r' || c = '\x0c' || c = '\x0b'

/-- Model of `strings.TrimSpace` on the character list. -/
def trimChars (cs : List Char) : List Char :=
  (cs.dropWhile isSpaceChar).reverse.dropWhile isSpaceChar |>.reverse

/-- Model of `strings.TrimSpace`. -/
def trimSpace (s : String) : String :=
  String.mk (trimChars s.data)

/-- Does `pat` occur at the head of `cs`? -/
def listIsPrefix (pat cs : List Char) : Bool :=
  match pat, cs with
  | [], _ => true
  | _ :: _, [] => false
  | p :: ps, c :: rest => p = c && listIsPrefix ps rest

/-- Index of the first occurrence of `pat` in `cs`, or `none`
(model of `strings.Index` returning -1). -/
def listFindSub (pat cs : List Char) : Option Nat :=
  match cs with
  | [] => if pat = [] then some 0 else none
  | _ :: rest =>
    if listIsPrefix pat cs then some 0
    else (listFindSub pat rest).map (· + 1)

/-- Model of `strings.Contains`. -/
def containsSub (s pat : String) : Bool :=
  (listFindSub pat.data s.data).isSome

/-- Model of `strings.Index` (first index of substring, `none` for -1). -/
def indexSub (s pat : String) : Option Nat :=
  listFindSub pat.data s.data

/-- Model of `strings.HasPrefix`. -/
def hasPrefixStr (s pat : String) : Bool :=
  listIsPrefix pat.data s.data

/-- Model of `strings.TrimSuffix`: drop `suf` from the end when present. -/
def trimSuffixStr (s suf : String) : String :=
  if listIsPrefix suf.data.reverse s.data.reverse then
    String.mk (s.data.take (s.data.length - suf.data.length))
  else s

/-- Split a character list on a single separator character (the semantics
of `strings.Split` with a one-character separator). -/
def splitOnChar (c : Char) : List Char → List (List Char)
  | [] => [[]]
  | x :: rest =>
    let r := splitOnChar c rest
    if x = c then [] :: r
    else
      match r with
      | h :: t => (x :: h) :: t
      | [] => [[x]]

/-- `strings.Split` with a one-character separator, on strings. -/
def splitOnStr (s : String) (c : Char) : List String :=
  (splitOnChar c s.data).map String.mk

/-- Numeric value of a run of decimal digits. -/
def digitsToNat (cs : List Char) : Nat :=
  cs.foldl (fun acc c => acc * 10 + (c.toNat - '0'.toNat)) 0

/-! ## PEP 440 version algebra

Modelled from the spec: the Go sources call the external
`go-pep440-version` library (`pep440.Parse`, `Version.Compare`,
`Version.IsPreRelease`, `pep440.NewSpecifiers`, `Specifiers.Check`), whose
code is not part of this repository.  The model below follows the
specification's description of the version algebra: a version is an epoch, an
ordered release tuple, an optional pre-release marker (kind ∈ {alpha, beta,
rc} with a number), an optional post-release number and an optional
dev-release number; ordering is epoch first, then the release tuple with
zero-padding, then pre < none < post, then dev < none.  (The optional
local-version string is omitted: the spec assigns it no ordering and no claim
involves it.)  A specifier is one of the eight comparison operators applied
to a version, `~=X.Y.Z` meaning `>=X.Y.Z, <X.(Y+1)` and `==X.Y.*` matching by
release prefix; a specifier set is a comma-separated conjunction.
-/

/-- Pre-release kind, ordered alpha < beta < rc. -/
inductive PreKind where
  | alpha
  | beta
  | rc
deriving DecidableEq, Repr

/-- Rank used to order pre-release kinds. -/
def PreKind.rank : PreKind → Nat
  | .alpha => 0
  | .beta => 1
  | .rc => 2

/-- A parsed PEP 440 version (spec §3 "Version"). -/
structure PepVersion where
  epoch : Nat
  release : List Nat
  pre : Option (PreKind × Nat)
  post : Option Nat
  dev : Option Nat
deriving DecidableEq, Repr

/-- Greedy run of decimal digits; `none` when the head is not a digit. -/
def parseNatChars : List Char → Option (Nat × List Char)
  | cs =>
    let digits := cs.takeWhile Char.isDigit
    if digits.isEmpty then none
    else some (digitsToNat digits, cs.dropWhile Char.isDigit)

/-- Release tuple: `N(.N)*`, stopping before a `.` not followed by a digit. -/
def parseReleaseChars (fuel : Nat) (cs : List Char) : Option (List Nat × List Char) :=
  match fuel with
  | 0 => none
  | fuel + 1 =>
    match parseNatChars cs with
    | none => none
    | some (n, rest) =>
      match rest with
      | '.' :: c :: _ =>
        if c.isDigit then
          match parseReleaseChars fuel (rest.drop 1) with
          | some (ns, rest') => some (n :: ns, rest')
          | none => some ([n], rest)
        else some ([n], rest)
      | _ => some ([n], rest)

/-- Pre-release marker: one of the spellings `a`, `b`, `c`, `rc`, `alpha`,
`beta`, optionally followed by a number (defaulting to 0). -/
def parsePreChars (cs : List Char) : Option ((PreKind × Nat) × List Char) :=
  let letters := cs.takeWhile Char.isAlpha
  let rest := cs.dropWhile Char.isAlpha
  let kind? : Option PreKind :=
    match String.mk letters with
    | "a" => some .alpha
    | "alpha" => some .alpha
    | "b" => some .beta
    | "beta" => some .beta
    | "rc" => some .rc
    | "c" => some .rc
    | _ => none
  match kind? with
  | none => none
  | some k =>
    match parseNatChars rest with
    | some (n, rest') => some ((k, n), rest')
    | none => some ((k, 0), rest)

/-- Suffix segment `.postN` / `.devN`. -/
def parseDotWordNat (word : String) (cs : List Char) : Option (Nat × List Char) :=
  match cs with
  | '.' :: rest =>
    if listIsPrefix word.data rest then
      match parseNatChars (rest.drop word.data.length) with
      | some (n, rest') => some (n, rest')
      | none => none
    else none
  | _ => none

/-- Modelled from the spec: `parse(string) → Version | ParseError` of the
version algebra (the external library's `pep440.Parse`).  Accepts
`[N!]N(.N)*[{a|b|rc|alpha|beta|c}N][.postN][.devN]`, case-insensitively and
with an optional leading `v`; anything else is a parse error (`none`). -/
def parseVersion (s : String) : Option PepVersion :=
  let cs := (trimChars s.data).map Char.toLower
  let cs := match cs with
    | 'v' :: rest => rest
    | _ => cs
  -- optional epoch `N!`
  let (epoch, cs) :=
    match parseNatChars cs with
    | some (n, '!' :: rest) => (n, rest)
    | _ => (0, cs)
  match parseReleaseChars (cs.length + 1) cs with
  | none => none
  | some (rel, cs) =>
    let (pre, cs) :=
      match parsePreChars cs with
      | some (p, rest) => (some p, rest)
      | none => (none, cs)
    let (post, cs) :=
      match parseDotWordNat "post" cs with
      | some (n, rest) => (some n, rest)
      | none => (none, cs)
    let (dev, cs) :=
      match parseDotWordNat "dev" cs with
      | some (n, rest) => (some n, rest)
      | none => (none, cs)
    if cs.isEmpty then
      some { epoch := epoch, release := rel, pre := pre, post := post, dev := dev }
    else none

/-- Lexicographic comparison of equally long lists. -/
def lexCompare : List Nat → List Nat → Ordering
  | [], _ => .eq
  | a :: as, bs =>
    match bs with
    | [] => .eq
    | b :: bs =>
      match compare a b with
      | .eq => lexCompare as bs
      | o => o

/-- Zero-pad `rel` on the right to length `n`. -/
def padRelease (rel : List Nat) (n : Nat) : List Nat :=
  rel ++ List.replicate (n - rel.length) 0

/-- Lexicographic comparison of release tuples with zero-padding. -/
def compareRelease (a b : List Nat) : Ordering :=
  let n := max a.length b.length
  lexCompare (padRelease a n) (padRelease b n)

/-- Compare optional pre-release markers: present < absent; within present,
kind rank then number. -/
def comparePre : Option (PreKind × Nat) → Option (PreKind × Nat) → Ordering
  | none, none => .eq
  | none, some _ => .gt
  | some _, none => .lt
  | some (k1, n1), some (k2, n2) =>
    match compare k1.rank k2.rank with
    | .eq => compare n1 n2
    | o => o

/-- Compare optional post-release numbers: absent < present. -/
def comparePost : Option Nat → Option Nat → Ordering
  | none, none => .eq
  | none, some _ => .lt
  | some _, none => .gt
  | some n1, some n2 => compare n1 n2

/-- Compare optional dev-release numbers: present < absent. -/
def compareDev : Option Nat → Option Nat → Ordering
  | none, none => .eq
  | none, some _ => .gt
  | some _, none => .lt
  | some n1, some n2 => compare n1 n2

/-- Modelled from the spec: the total order of the version algebra
(`Version.Compare`): epoch dominates, then release with zero-padding, then
pre < none < post, then dev < none. -/
def compareVersion (a b : PepVersion) : Ordering :=
  match compare a.epoch b.epoch with
  | .eq =>
    match compareRelease a.release b.release with
    | .eq =>
      match comparePre a.pre b.pre with
      | .eq =>
        match comparePost a.post b.post with
        | .eq => compareDev a.dev b.dev
        | o => o
      | o => o
    | o => o
  | o => o

/-- Modelled from the spec: `is_prerelease` — a version with a pre-release
marker or a dev segment counts as a pre-release. -/
def isPreRelease (v : PepVersion) : Bool :=
  v.pre.isSome || v.dev.isSome

/-- One parsed version specifier (spec §3 "VersionSpecifier"). -/
inductive Spec where
  /-- an ordinary comparison `op version` -/
  | cmp (op : String) (v : PepVersion)
  /-- prefix match `==X.Y.*` (negated for `!=`) -/
  | wildcard (negated : Bool) (epoch : Nat) (relPrefix : List Nat)
deriving DecidableEq, Repr

/-- Operators recognised in a specifier, longest first. -/
def specOps : List String :=
  ["===", "==", "!=", "<=", ">=", "~=", "<", ">"]

/-- Split `op` from the operand of a single specifier. -/
def splitSpecOp (s : String) : Option (String × String) :=
  (specOps.find? (fun op => listIsPrefix op.data s.data)).map
    (fun op => (op, String.mk (s.data.drop op.data.length)))

/-- Modelled from the spec: parse a single specifier such as `>=2.0`,
`==1.2.*` or `~=1.4.2`. -/
def parseSpec (s : String) : Option Spec :=
  match splitSpecOp (trimSpace s) with
  | none => none
  | some (op, rest) =>
    let rest := trimSpace rest
    if (op = "==" || op = "!=") && listIsPrefix ['*', '.'] rest.data.reverse then
      let core := String.mk (rest.data.take (rest.data.length - 2))
      match parseVersion core with
      | some v =>
        if v.pre = none && v.post = none && v.dev = none then
          some (.wildcard (op = "!=") v.epoch v.release)
        else none
      | none => none
    else
      match parseVersion rest with
      | none => none
      | some v =>
        if op = "~=" && v.release.length < 2 then none
        else some (.cmp op v)

/-- Modelled from the spec: `parse_specifier_set` — a comma-separated
AND-conjunction of specifiers. -/
def parseSpecifiers (s : String) : Option (List Spec) :=
  if (trimSpace s) = "" then some []
  else
    (splitOnStr s ',').mapM (fun part => parseSpec part)

/-- Modelled from the spec: does version `v` satisfy one specifier?
`~=X.Y.Z` means `>=X.Y.Z, <X.(Y+1)`; `==X.Y.*` accepts any release whose
first components equal the prefix. -/
def checkSpec (sp : Spec) (v : PepVersion) : Bool :=
  match sp with
  | .wildcard neg epoch relPre =>
    let hit := v.epoch = epoch &&
      (padRelease v.release relPre.length).take relPre.length = relPre
    if neg then !hit else hit
  | .cmp op w =>
    match op with
    | ">=" => compareVersion v w ≠ .lt
    | "<=" => compareVersion v w ≠ .gt
    | ">" => compareVersion v w = .gt
    | "<" => compareVersion v w = .lt
    | "==" => compareVersion v w = .eq
    | "===" => v = w
    | "!=" => compareVersion v w ≠ .eq
    | "~=" =>
      let stem := w.release.take (w.release.length - 1)
      let upper : PepVersion :=
        { epoch := w.epoch
          release := stem.take (stem.length - 1) ++ [stem.getLastD 0 + 1]
          pre := none, post := none, dev := none }
      compareVersion v w ≠ .lt && compareVersion v upper = .lt
    | _ => false

/-- Modelled from the spec: `satisfies(Version, SpecifierSet)` — the
AND-conjunction of the member specifiers. -/
def checkSpecs (sps : List Spec) (v : PepVersion) : Bool :=
  sps.all (fun sp => checkSpec sp v)

/-! ## Version selection (src/unnamed/part_010, package resolver)

`MatchesAll`, `FindBestVersion`, `SortVersionsDesc` and
`FormatPythonVersion`, translated from the Go source.  `SortVersionsDesc`
never returns a non-nil error in the source, so it is modelled as a pure
function; Go's unstable `sort.Slice` under the strict `GreaterThan` ordering
is modelled with a stable insertion sort (ties between distinct strings that
parse to equal versions may order differently, which no claim depends on).
-/

/-- The specifier loop of `MatchesAll`: stop with `false` at the first
specifier the version fails, error on an unparseable specifier. -/
def matchesAllLoop (v : PepVersion) : List String → Except String Bool
  | [] => .ok true
  | spec :: rest =>
    match parseSpecifiers spec with
    | none => .error ("parsing specifier " ++ spec)
    | some ss =>
      if !checkSpecs ss v then .ok false
      else matchesAllLoop v rest

/-- `MatchesAll` checks if a version string satisfies all the given
specifier strings (errors mirror the Go `fmt.Errorf` sites). -/
def MatchesAll (versionStr : String) (specifiers : List String) : Except String Bool :=
  match parseVersion versionStr with
  | none => .error ("parsing version " ++ versionStr)
  | some v => matchesAllLoop v specifiers

/-- Ordering used by `SortVersionsDesc`: place `a` before `b` when `a` is
not below `b` (descending). -/
def versionGE (a b : String × PepVersion) : Prop :=
  compareVersion a.2 b.2 ≠ .lt

instance : DecidableRel versionGE := fun a b => by
  unfold versionGE; infer_instance

/-- `SortVersionsDesc` sorts version strings in descending order (highest
first); invalid version strings are filtered out. -/
def SortVersionsDesc (versions : List String) : List String :=
  let valid := versions.filterMap
    (fun raw => (parseVersion raw).map (fun v => (raw, v)))
  (valid.insertionSort versionGE).map (·.1)

/-- The candidate loop of `FindBestVersion` over the sorted candidate list:
skip pre-releases, return the first candidate satisfying all specifiers. -/
def findBestLoop (specifiers : List String) : List String → Except String String
  | [] => .ok ""
  | v :: rest =>
    let skip :=
      match parseVersion v with
      | some p => isPreRelease p
      | none => false
    if skip then findBestLoop specifiers rest
    else
      match MatchesAll v specifiers with
      | .error e => .error e
      | .ok true => .ok v
      | .ok false => findBestLoop specifiers rest

/-- `FindBestVersion` finds the highest version from candidates that
satisfies all specifiers, skipping pre-releases; returns `""` when no
version matches. -/
def FindBestVersion (candidates specifiers : List String) : Except String String :=
  findBestLoop specifiers (SortVersionsDesc candidates)

/-- `FormatPythonVersion` converts a compact version like "312" to dotted
"3.12". -/
def FormatPythonVersion (v : String) : String :=
  if v.data.length ≥ 2 then
    String.mk (v.data.take 1) ++ "." ++ String.mk (v.data.drop 1)
  else v

/-! ## Requirements and markers (src/internal/resolver/requirement.go)

`ParseRequirement`, `NormalizeName`, `EvalMarker` and their helpers,
translated from the Go source.  The regular expression `markerTermRe` is
modelled by a direct matcher with the same alternation preferences.
-/

/-- A parsed PEP 508 dependency specifier (`Requirement`). -/
structure Requirement where
  name : String
  specifier : String
  marker : String
deriving DecidableEq, Repr

/-- Environment for evaluating PEP 508 markers (`MarkerEnv`). -/
structure MarkerEnv where
  pythonVersion : String
  sysPlatform : String
  osName : String
deriving DecidableEq, Repr

/-- `NormalizeName` normalizes a Python package name per PEP 503:
lowercase, runs of `-` `_` `.` collapsed to a single hyphen. -/
def NormalizeName (name : String) : String :=
  let rec go : List Char → Bool → List Char
    | [], _ => []
    | c :: rest, prevHyphen =>
      if c = '-' || c = '_' || c = '.' then
        if prevHyphen then go rest true
        else '-' :: go rest true
      else c :: go rest false
  String.mk (go (name.data.map Char.toLower) false)

/-- Split at the first occurrence of `sep` (model of `strings.SplitN` with
limit 2): the part before and, when `sep` occurs, the part after. -/
def splitFirst (s sep : String) : String × Option String :=
  match listFindSub sep.data s.data with
  | none => (s, none)
  | some i =>
    (String.mk (s.data.take i),
     some (String.mk (s.data.drop (i + sep.data.length))))

/-- `ParseRequirement` parses a PEP 508 requirement string: split at the
first `;` into name-spec and marker, strip `[extras]`, remove parentheses,
split the name from the specifier at the first of `><=!~`. -/
def ParseRequirement (s : String) : Requirement :=
  let (nameSpecRaw, markerRaw) := splitFirst s ";"
  let marker := match markerRaw with
    | some m => trimSpace m
    | none => ""
  let nameSpec := trimSpace nameSpecRaw
  -- Strip extras: package[extra1,extra2]
  let nameSpec :=
    match indexSub nameSpec "[" with
    | some idx =>
      match indexSub nameSpec "]" with
      | some endIdx =>
        if idx < endIdx then
          String.mk (nameSpec.data.take idx ++ nameSpec.data.drop (endIdx + 1))
        else nameSpec
      | none => nameSpec
    | none => nameSpec
  -- Strip parenthesized specifier: package (>=1.0)
  let nameSpec := String.mk (nameSpec.data.filter (fun c => c ≠ '(' && c ≠ ')'))
  let nameSpec := trimSpace nameSpec
  -- Split name from specifier at first operator char
  match nameSpec.data.findIdx? (fun c => c = '>' || c = '<' || c = '=' || c = '!' || c = '~') with
  | some specStart =>
    { name := NormalizeName (trimSpace (String.mk (nameSpec.data.take specStart)))
      specifier := trimSpace (String.mk (nameSpec.data.drop specStart))
      marker := marker }
  | none =>
    { name := NormalizeName nameSpec, specifier := "", marker := marker }

/-- `unquote` strips one level of matching single or double quotes. -/
def unquote (s : String) : String :=
  match s.data with
  | c :: rest =>
    if rest ≠ [] &&
       ((c = '"' && rest.getLast? = some '"') ||
        (c = '\'' && rest.getLast? = some '\'')) then
      String.mk (rest.take (rest.length - 1))
    else s
  | [] => s

/-- `resolveMarkerValue` resolves a marker token to its actual value. -/
def resolveMarkerValue (token : String) (env : MarkerEnv) : String :=
  let token := unquote token
  if token = "python_version" then env.pythonVersion
  else if token = "python_full_version" then env.pythonVersion
  else if token = "sys_platform" then env.sysPlatform
  else if token = "os_name" then env.osName
  else token

/-- `isVersionVariable`. -/
def isVersionVariable (name : String) : Bool :=
  name = "python_version" || name = "python_full_version"

/-- `compareStringMarker`: string comparison of marker operands (`in` is a
substring test of left inside right). -/
def compareStringMarker (left op right : String) : Bool :=
  if op = "==" then left = right
  else if op = "!=" then left ≠ right
  else if op = "in" then containsSub right left
  else if op = "not in" then !containsSub right left
  else left = right

/-- `compareVersionMarker`: semantic comparison when a version variable is
involved; falls back to string comparison when either side fails to parse. -/
def compareVersionMarker (left op right : String) : Bool :=
  match parseVersion left, parseVersion right with
  | some lv, some rv =>
    let cmp := compareVersion lv rv
    if op = ">=" then cmp ≠ .lt
    else if op = "<=" then cmp ≠ .gt
    else if op = ">" then cmp = .gt
    else if op = "<" then cmp = .lt
    else if op = "==" then cmp = .eq
    else if op = "!=" then cmp ≠ .eq
    else if op = "~=" then cmp ≠ .lt
    else false
  | _, _ => compareStringMarker left op right

/-- Whitespace class of the regular expression `\s`. -/
def isSpaceRe (c : Char) : Bool :=
  c = ' ' || c = '\t' || c = '\n' || c = '\x0c' || c = '\r'

/-- Word class of `[\w.]` in `markerTermRe`. -/
def isWordDotChar (c : Char) : Bool :=
  c.isAlphanum || c = '_' || c = '.'

/-- Match one operand alternative `[\w.]+|"[^"]*"|'[^']*'` of
`markerTermRe`.  Returns the candidate captures in the preference order of
the regular-expression engine (greedy word run first, then shorter runs);
quoted alternatives have a single candidate.  Captures keep their quotes. -/
def operandCandidates (cs : List Char) : List (String × List Char) :=
  match cs with
  | '"' :: rest =>
    let body := rest.takeWhile (fun c => c ≠ '"')
    (match rest.drop body.length with
     | '"' :: rest' => [(String.mk ('"' :: body ++ ['"']), rest')]
     | _ => [])
  | '\'' :: rest =>
    let body := rest.takeWhile (fun c => c ≠ '\'')
    (match rest.drop body.length with
     | '\'' :: rest' => [(String.mk ('\'' :: body ++ ['\'']), rest')]
     | _ => [])
  | _ =>
    let run := cs.takeWhile isWordDotChar
    let after := cs.drop run.length
    ((List.range run.length).map
      (fun k =>
        let keep := run.length - k
        (String.mk (run.take keep), run.drop keep ++ after)))

/-- Match the operator alternation
`>=|<=|!=|==|~=|>|<|not\s+in|in` at the head of `cs`; the capture is the
matched text (so `not in` with several spaces is captured verbatim). -/
def matchOp (cs : List Char) : Option (String × List Char) :=
  let symbolic := [">=", "<=", "!=", "==", "~=", ">", "<"]
  match symbolic.find? (fun op => listIsPrefix op.data cs) with
  | some op => some (op, cs.drop op.data.length)
  | none =>
    if listIsPrefix ['n', 'o', 't'] cs then
      let afterNot := cs.drop 3
      let sp := afterNot.takeWhile isSpaceRe
      if sp ≠ [] && listIsPrefix ['i', 'n'] (afterNot.drop sp.length) then
        some (String.mk ('n' :: 'o' :: 't' :: sp ++ ['i', 'n']),
              (afterNot.drop sp.length).drop 2)
      else none
    else if listIsPrefix ['i', 'n'] cs then
      some ("in", cs.drop 2)
    else none

/-- Complete a match of `markerTermRe` after the left operand: `\s*`,
operator, `\s*`, right operand, `\s*$`. -/
def matchAfterLeft (left : String) (cs : List Char) : Option (String × String × String) :=
  let cs := cs.dropWhile isSpaceRe
  match matchOp cs with
  | none => none
  | some (op, cs) =>
    let cs := cs.dropWhile isSpaceRe
    match operandCandidates cs with
    | (right, rest) :: _ =>
      if right ≠ "" && rest.dropWhile isSpaceRe = [] then some (left, op, right)
      else none
    | [] => none

/-- Model of `markerTermRe.FindStringSubmatch`: anchored match of
`\s* operand \s* op \s* operand \s*` returning the three captures. -/
def matchTerm (s : String) : Option (String × String × String) :=
  let cs := s.data.dropWhile isSpaceRe
  let rec tryCands : List (String × List Char) → Option (String × String × String)
    | [] => none
    | (left, rest) :: more =>
      if left = "" then tryCands more
      else
        match matchAfterLeft left rest with
        | some r => some r
        | none => tryCands more
  tryCands (operandCandidates cs)

/-- `evalTerm` evaluates a single marker term like
`python_version >= "3.8"`; an unrecognised term is assumed satisfied. -/
def evalTerm (term : String) (env : MarkerEnv) : Bool :=
  match matchTerm term with
  | none => true
  | some (l, op, r) =>
    let left := resolveMarkerValue l env
    let right := resolveMarkerValue r env
    if isVersionVariable (unquote l) || isVersionVariable (unquote r) then
      compareVersionMarker left op right
    else
      compareStringMarker left op right

/-- `splitOutside` splits on a separator only at parenthesis depth 0 and
outside quotes (depth is an integer, as in Go, so unbalanced `)` can make
it negative).  The fuel argument drives structural recursion; each step
consumes at least one character, so fuel `cs.length` always suffices for a
non-empty separator. -/
def splitOutsideAux (sep : List Char) :
    Nat → List Char → Int → Option Char → List Char → List (List Char)
  | _, [], _, _, acc => [acc.reverse]
  | 0, cs, _, _, acc => [acc.reverse ++ cs]
  | fuel + 1, c :: rest, depth, some q, acc =>
    splitOutsideAux sep fuel rest depth (if c = q then none else some q) (c :: acc)
  | fuel + 1, c :: rest, depth, none, acc =>
    if c = '"' || c = '\'' then
      splitOutsideAux sep fuel rest depth (some c) (c :: acc)
    else if c = '(' then
      splitOutsideAux sep fuel rest (depth + 1) none (c :: acc)
    else if c = ')' then
      splitOutsideAux sep fuel rest (depth - 1) none (c :: acc)
    else if depth = 0 && listIsPrefix sep (c :: rest) then
      acc.reverse :: splitOutsideAux sep fuel ((c :: rest).drop sep.length) depth none []
    else
      splitOutsideAux sep fuel rest depth none (c :: acc)

/-- `splitOutside` on strings (the separators used are `" or "` and
`" and "`, both non-empty, so the fuel is adequate). -/
def splitOutside (s sep : String) : List String :=
  if sep.data.length > 0 then
    (splitOutsideAux sep.data s.data.length s.data 0 none []).map String.mk
  else [s]

/-- `EvalMarker` evaluates a PEP 508 environment marker: empty markers are
true; any marker containing `extra` is false (extras are unsupported);
otherwise `or`-groups of `and`-terms are evaluated with `evalTerm`. -/
def EvalMarker (marker : String) (env : MarkerEnv) : Bool :=
  let marker := trimSpace marker
  if marker = "" then true
  -- Skip extra-conditional dependencies in v1
  else if containsSub marker "extra" then false
  else
    (splitOutside marker " or ").any (fun orGroup =>
      (splitOutside (trimSpace orGroup) " and ").all (fun term =>
        evalTerm (trimSpace term) env))

/-! ## Wheel tag selection (src/unnamed/part_007, package downloader)

`ParseWheelFilename`, `SelectWheel`, `tagMatches` and `fieldMatches`,
translated from the Go source.  `pypi.URL` is modelled with the fields the
embedded code observes (`Filename`, `URL`, `PackageType`, `digests.sha256`,
`Yanked`); the Go zero value `pypi.URL{}` used for the initial `bestURL` is
`PyURL.zero`.
-/

/-- A PEP 425 compatibility tag (`WheelTag`). -/
structure WheelTag where
  python : String
  abi : String
  platform : String
deriving DecidableEq, Repr

/-- A downloadable file from the PyPI API (`pypi.URL`, observed fields). -/
structure PyURL where
  filename : String
  url : String
  packageType : String
  sha256 : String
  yanked : Bool
deriving DecidableEq, Repr

/-- The Go zero value `pypi.URL{}`. -/
def PyURL.zero : PyURL :=
  { filename := "", url := "", packageType := "", sha256 := "", yanked := false }

/-- `ParseWheelFilename` parses `{name}-{ver}-{python}-{abi}-{platform}.whl`;
the last three hyphen segments are the tag. -/
def ParseWheelFilename (filename : String) : Option (String × String × WheelTag) :=
  let filename := trimSuffixStr filename ".whl"
  let parts := splitOnStr filename '-'
  if parts.length < 5 then none
  else
    some (parts.headD "", parts[1]?.getD "",
      { python := parts[parts.length - 3]?.getD ""
        abi := parts[parts.length - 2]?.getD ""
        platform := parts[parts.length - 1]?.getD "" })

/-- `fieldMatches`: the wheel tag field may be a dot-separated union. -/
def fieldMatches (wheelField compatValue : String) : Bool :=
  (splitOnStr wheelField '.').any (fun w => w = compatValue)

/-- `tagMatches`: all three fields must match. -/
def tagMatches (wheel compat : WheelTag) : Bool :=
  fieldMatches wheel.python compat.python &&
  fieldMatches wheel.abi compat.abi &&
  fieldMatches wheel.platform compat.platform

/-- Index of the first compatibility tag matching `tag`. -/
def firstMatchIdx (tag : WheelTag) : List WheelTag → Option Nat
  | [] => none
  | ct :: rest =>
    if tagMatches tag ct then some 0
    else (firstMatchIdx tag rest).map (· + 1)

/-- The inner priority scan of `SelectWheel`: the first index `i` below the
current best priority with `tagMatches tag compatTags[i]` (the Go loop
breaks at `i >= bestPriority`). -/
def innerBest (tag : WheelTag) (compatTags : List WheelTag) (bound : Nat) : Option Nat :=
  firstMatchIdx tag (compatTags.take bound)

/-- The scanning loop of `SelectWheel`, carrying `bestPriority`, `bestURL`
and `found`; stops early when priority 0 is reached. -/
def SelectWheelLoop (compatTags : List WheelTag) :
    List PyURL → Nat → PyURL → Bool → Nat × PyURL × Bool
  | [], best, bu, found => (best, bu, found)
  | u :: rest, best, bu, found =>
    if u.packageType ≠ "bdist_wheel" then
      SelectWheelLoop compatTags rest best bu found
    else
      match ParseWheelFilename u.filename with
      | none => SelectWheelLoop compatTags rest best bu found
      | some (_, _, tag) =>
        match innerBest tag compatTags best with
        | some i =>
          if i = 0 then (0, u, true)
          else SelectWheelLoop compatTags rest i u true
        | none => SelectWheelLoop compatTags rest best bu found

/-- `SelectWheel` selects the best compatible wheel from the available URLs
(`compatTags` ordered most-preferred first); errors when no wheel matches,
with no fallback to an sdist. -/
def SelectWheel (urls : List PyURL) (compatTags : List WheelTag) : Except String PyURL :=
  match SelectWheelLoop compatTags urls compatTags.length PyURL.zero false with
  | (_, bu, true) => .ok bu
  | (_, _, false) =>
    .error ("no compatible wheel found (tried " ++ toString urls.length ++ " URLs)")

/-- Claim-side reference for wheel selection: the priority index at which a
release file matches, `none` for non-wheels, unparseable filenames and
wheels matching no priority entry. -/
def wheelMatchIndex (compatTags : List WheelTag) (u : PyURL) : Option Nat :=
  if u.packageType = "bdist_wheel" then
    match ParseWheelFilename u.filename with
    | some (_, _, tag) => firstMatchIdx tag compatTags
    | none => none
  else none

/-- Claim-side reference loop: keep the wheel whose match index is smallest,
ties broken in favour of the first-seen wheel. -/
def selectWheelRefLoop (compatTags : List WheelTag) :
    List PyURL → Option (Nat × PyURL) → Option (Nat × PyURL)
  | [], best => best
  | u :: rest, best =>
    match wheelMatchIndex compatTags u, best with
    | some i, some (bi, bu) =>
      selectWheelRefLoop compatTags rest
        (if i < bi then some (i, u) else some (bi, bu))
    | some i, none => selectWheelRefLoop compatTags rest (some (i, u))
    | none, b => selectWheelRefLoop compatTags rest b

/-- Claim-side reference for `SelectWheel`, written from the claim: scan all
wheels, compute each wheel's best priority index, return the first-seen
wheel attaining the smallest index, and fail when no wheel matches. -/
def selectWheelRef (urls : List PyURL) (compatTags : List WheelTag) : Except String PyURL :=
  match selectWheelRefLoop compatTags urls none with
  | some (_, u) => .ok u
  | none =>
    .error ("no compatible wheel found (tried " ++ toString urls.length ++ " URLs)")

/-! ## The dependency resolver (src/internal/resolver/resolver.go)

`Resolve`, `verifyConstraints`, `resolvePackage`, `fetchDeps`,
`filterDeps`, `filterDepNames` and `availableVersions`, translated from the
Go source.  The PyPI client is modelled by two pure functions (`getPkg`,
`getVer`) returning either a `PackageInfo` or an error string; the Go maps
`resolved` / `constraints` / `processing` become an association list (in
insertion order; Go map iteration order is random, which no claim depends
on), an update function and a predicate.  The loop is driven by fuel; a Go
run that terminates corresponds to a sufficiently large fuel value, and all
claims are conditional on a non-`outOfFuel` outcome. -/

/-- Observed fields of `pypi.Info`. -/
structure PyInfoMeta where
  version : String
  requiresDist : List String
deriving DecidableEq, Repr

/-- Observed fields of `pypi.PackageInfo`: metadata, release files at the
latest version, and the releases map. -/
structure PackageInfo where
  info : PyInfoMeta
  urls : List PyURL
  releases : List (String × List PyURL)
deriving DecidableEq, Repr

/-- `resolver.ResolvedPackage`. -/
structure ResolvedPackage where
  name : String
  version : String
  dependencies : List String
deriving DecidableEq, Repr

/-- Structured resolver errors, one per `fmt.Errorf` site of the source. -/
inductive ResolveErr where
  /-- "checking constraints for %s: %w" -/
  | constraintCheck (name : String) (err : String)
  /-- "version conflict for %s: %s does not satisfy %v" -/
  | versionConflict (name version : String) (specs : List String)
  /-- "fetching %s from PyPI: %w" -/
  | fetchPkg (name : String) (err : String)
  /-- "finding best version for %s: %w" -/
  | findBest (name : String) (err : String)
  /-- "no compatible version found for %s matching %v" -/
  | noCompatible (name : String) (specs : List String)
  /-- "fetching %s version %s: %w" -/
  | fetchVersion (name version : String) (err : String)
  /-- fuel exhausted (no counterpart in the source; a terminating Go run
  corresponds to enough fuel) -/
  | outOfFuel
deriving DecidableEq, Repr

/-- Association-list lookup (model of a Go map read). -/
def lookupA {α : Type} : List (String × α) → String → Option α
  | [], _ => none
  | (k, v) :: rest, name => if k = name then some v else lookupA rest name

/-- `availableVersions` extracts version strings from a `PackageInfo`'s
releases (versions with a non-empty file list); falls back to
`info.Version` if no releases are present. -/
def availableVersions (info : PackageInfo) : List String :=
  if info.releases.length > 0 then
    (info.releases.filter (fun p => p.2.length > 0)).map (·.1)
  else if info.info.version ≠ "" then [info.info.version]
  else []

/-- `filterDepNames` extracts normalized dependency names from
`requires_dist`, filtering by marker environment. -/
def filterDepNames (requiresDist : List String) (env : MarkerEnv) : List String :=
  requiresDist.filterMap (fun dep =>
    let req := ParseRequirement dep
    if req.marker ≠ "" && !EvalMarker req.marker env then none
    else some req.name)

/-- `filterDeps` parses dependency strings and filters them by marker
environment; empty under `noDeps`. -/
def filterDeps (noDeps : Bool) (env : MarkerEnv) (deps : List String) : List Requirement :=
  if noDeps then []
  else deps.filterMap (fun dep =>
    let req := ParseRequirement dep
    if req.marker ≠ "" && !EvalMarker req.marker env then none
    else some req)

/-- `verifyConstraints` checks that a resolved package still satisfies all
accumulated constraints; a failed check is a version conflict carrying the
name, the chosen version and the full constraint list. -/
def verifyConstraints (pkg : ResolvedPackage) (specs : List String) : Except ResolveErr Unit :=
  match MatchesAll pkg.version specs with
  | .error e => .error (.constraintCheck pkg.name e)
  | .ok true => .ok ()
  | .ok false => .error (.versionConflict pkg.name pkg.version specs)

/-- `fetchDeps` returns `requires_dist` for a specific version, re-fetching
by version when it differs from the latest. -/
def fetchDeps (getVer : String → String → Except String PackageInfo)
    (info : PackageInfo) (name version : String) : Except ResolveErr (List String) :=
  if version = info.info.version then .ok info.info.requiresDist
  else
    match getVer name version with
    | .error e => .error (.fetchVersion name version e)
    | .ok versionInfo => .ok versionInfo.info.requiresDist

/-- `resolvePackage` fetches a package, selects the best version and
returns the resolved package along with its raw dependency list. -/
def resolvePackage (getPkg : String → Except String PackageInfo)
    (getVer : String → String → Except String PackageInfo) (env : MarkerEnv)
    (name : String) (specs : List String) :
    Except ResolveErr (ResolvedPackage × List String) :=
  match getPkg name with
  | .error e => .error (.fetchPkg name e)
  | .ok info =>
    match FindBestVersion (availableVersions info) specs with
    | .error e => .error (.findBest name e)
    | .ok best =>
      if best = "" then .error (.noCompatible name specs)
      else
        match fetchDeps getVer info name best with
        | .error e => .error e
        | .ok deps =>
          .ok ({ name := name, version := best
                 dependencies := filterDepNames deps env }, deps)

/-- The constraint-accumulation step at the top of the loop: append the
dequeued requirement's specifier (when present) to its name's list. -/
def addConstraint (constraints : String → List String) (req : Requirement) :
    String → List String :=
  if req.specifier ≠ "" then
    fun n => if n = req.name then constraints req.name ++ [req.specifier]
             else constraints n
  else constraints

/-- The BFS loop of `Resolve`.  Returns the resolved packages together with
the final accumulated-constraints map (the Go code keeps the map internal;
it is returned here so that theorems can speak about the specifiers
dequeued during the walk). -/
def resolveLoopAux (getPkg : String → Except String PackageInfo)
    (getVer : String → String → Except String PackageInfo)
    (env : MarkerEnv) (noDeps : Bool) :
    Nat → List Requirement → List (String × ResolvedPackage) →
    (String → List String) → (String → Bool) →
    Except ResolveErr (List ResolvedPackage × (String → List String))
  | _, [], resolved, constraints, _ => .ok (resolved.map (·.2), constraints)
  | 0, _ :: _, _, _, _ => .error .outOfFuel
  | fuel + 1, req :: rest, resolved, constraints, processing =>
    let constraints := addConstraint constraints req
    match lookupA resolved req.name with
    | some pkg =>
      match verifyConstraints pkg (constraints req.name) with
      | .error e => .error e
      | .ok _ => resolveLoopAux getPkg getVer env noDeps fuel rest resolved constraints processing
    | none =>
      if processing req.name then
        resolveLoopAux getPkg getVer env noDeps fuel rest resolved constraints processing
      else
        let processing := fun n => if n = req.name then true else processing n
        match resolvePackage getPkg getVer env req.name (constraints req.name) with
        | .error e => .error e
        | .ok (pkg, deps) =>
          resolveLoopAux getPkg getVer env noDeps fuel
            (rest ++ filterDeps noDeps env deps)
            (resolved ++ [(req.name, pkg)]) constraints processing

/-- `Resolve` resolves all dependencies for the given requirement strings
by BFS, returning the full list of packages to install. -/
def Resolve (getPkg : String → Except String PackageInfo)
    (getVer : String → String → Except String PackageInfo)
    (env : MarkerEnv) (noDeps : Bool) (fuel : Nat) (requirements : List String) :
    Except ResolveErr (List ResolvedPackage) :=
  (resolveLoopAux getPkg getVer env noDeps fuel
    (requirements.map ParseRequirement) [] (fun _ => []) (fun _ => false)).map (·.1)

/-! ## PyPI client retry loop (src/unnamed/part_009, package pypi)

`doRequest` and `fetch`, translated from the Go source.  The network is
modelled by an oracle giving the wire-level outcome of each attempt
(network error, or a status code with a body outcome).  Cancellation is not
modelled (the context is never done).  The backoff before a retry is
recorded in milliseconds: the source computes
`time.Duration(math.Pow(2, float64(attempt))) * 500 * time.Millisecond`,
that is `2^attempt × 500` ms for the (0-based) loop index `attempt`. -/

/-- Outcome of reading/decoding a response body. -/
inductive PyBody where
  | readErr
  | badJSON
  | json (info : PackageInfo)
deriving DecidableEq, Repr

/-- Wire-level outcome of a single HTTP attempt. -/
inductive PyWire where
  | netErr
  | resp (status : Nat) (body : PyBody)
deriving DecidableEq, Repr

/-- Errors of a single `doRequest`, one per `fmt.Errorf` site. -/
inductive FetchErr where
  /-- "requesting %s: %w" (wrapped retryable) -/
  | requestFailed
  /-- "package not found at %s" (a 404) -/
  | notFound
  /-- "server error %d from %s" (wrapped retryable) -/
  | serverError (code : Nat)
  /-- "unexpected status %d from %s" -/
  | unexpectedStatus (code : Nat)
  /-- "reading response from %s: %w" (wrapped retryable) -/
  | readFailed
  /-- "decoding response from %s: %w" -/
  | decodeFailed
deriving DecidableEq, Repr

/-- Which `doRequest` errors are wrapped in `retryableError`. -/
def FetchErr.retryable : FetchErr → Bool
  | .requestFailed => true
  | .serverError _ => true
  | .readFailed => true
  | _ => false

/-- `doRequest`: one HTTP GET, classifying the outcome exactly as the
source does (404 before the 5xx check, then the non-200 check, then body
read, then JSON decode). -/
def doRequest (w : PyWire) : Except FetchErr PackageInfo :=
  match w with
  | .netErr => .error .requestFailed
  | .resp status body =>
    if status = 404 then .error .notFound
    else if status ≥ 500 then .error (.serverError status)
    else if status ≠ 200 then .error (.unexpectedStatus status)
    else
      match body with
      | .readErr => .error .readFailed
      | .badJSON => .error .decodeFailed
      | .json info => .ok info

/-- Final outcome of `fetch`: a permanent error returned immediately, or
retry exhaustion wrapping the last transient error. -/
inductive FetchFinal where
  | permanent (e : FetchErr)
  /-- "fetching %s after %d attempts: %w" -/
  | exhausted (last : Option FetchErr)
deriving DecidableEq, Repr

/-- The retry loop of `fetch`: at most `remaining` further attempts,
`attempt` attempts already made; returns the result, the total number of
attempts issued, and the backoff waits (ms) in order. -/
def fetchAux (oracle : Nat → PyWire) :
    Nat → Nat → Option FetchErr →
    Except FetchFinal PackageInfo × Nat × List Nat
  | attempt, 0, last => (.error (.exhausted last), attempt, [])
  | attempt, remaining + 1, _ =>
    let waits : List Nat := if attempt > 0 then [2 ^ attempt * 500] else []
    match doRequest (oracle attempt) with
    | .ok info => (.ok info, attempt + 1, waits)
    | .error e =>
      if e.retryable then
        let (r, n, bs) := fetchAux oracle (attempt + 1) remaining (some e)
        (r, n, waits ++ bs)
      else (.error (.permanent e), attempt + 1, waits)

/-- `fetch` performs an HTTP GET with retry and exponential backoff
(`maxRetries = 3`); only transient errors are retried. -/
def fetch (oracle : Nat → PyWire) : Except FetchFinal PackageInfo × Nat × List Nat :=
  fetchAux oracle 0 3 none

/-! ## Downloader retry loop and hash verification
(src/internal/downloader/downloader.go)

`doDownload` and `downloadWithRetry`, translated from the Go source.  The
body is a byte list; the SHA-256 function is a parameter `H` (the real hash
is opaque; every claim below holds for an arbitrary `H`).  The temp-file
effects of one attempt are returned explicitly.  The backoff formula is the
same `2^attempt × 500` ms as the PyPI client's. -/

/-- Outcome of streaming a response body to the temp file. -/
inductive DLBody where
  /-- `io.Copy` (or the temp-file close) failed mid-stream -/
  | copyErr
  /-- the full body, as bytes -/
  | bytes (content : List Nat)
deriving DecidableEq, Repr

/-- Wire-level outcome of a single download attempt. -/
inductive DLWire where
  | netErr
  | resp (status : Nat) (body : DLBody)
deriving DecidableEq, Repr

/-- Errors of a single `doDownload`, one per `fmt.Errorf` site. -/
inductive DLErr where
  /-- "requesting %s: %w" (wrapped retryable) -/
  | requestFailed
  /-- "unexpected status %d from %s" for a 5xx (wrapped retryable) -/
  | serverError (code : Nat)
  /-- "unexpected status %d from %s" for other non-200 codes -/
  | unexpectedStatus (code : Nat)
  /-- "writing %s: %w" -/
  | writeFailed
  /-- "sha256 mismatch for %s: expected %s, got %s" -/
  | shaMismatch (expected got : String)
deriving DecidableEq, Repr

/-- Which `doDownload` errors are wrapped in `retryableError`. -/
def DLErr.retryable : DLErr → Bool
  | .requestFailed => true
  | .serverError _ => true
  | _ => false

/-- Lowercase hex digit (as produced by `hex.EncodeToString`). -/
def hexDigitChar (n : Nat) : Char :=
  if n < 10 then Char.ofNat ('0'.toNat + n)
  else Char.ofNat ('a'.toNat + (n - 10))

/-- Model of `hex.EncodeToString`: lowercase hex, two digits per byte. -/
def hexEncode (bs : List Nat) : String :=
  String.mk (bs.foldr
    (fun b acc => hexDigitChar (b / 16 % 16) :: hexDigitChar (b % 16) :: acc) [])

/-- Result of one `doDownload` attempt, with its temp-file effects. -/
structure DLOutcome where
  result : Except DLErr Nat
  tmpCreated : Bool
  tmpRemoved : Bool
  published : Bool
deriving Repr

/-- `doDownload`: one HTTP GET, streamed to a temp file while hashing,
SHA-256 verification against `sha256exp` when non-empty (exact string
comparison with the lowercase hex digest), then atomic rename.  `H` is the
SHA-256 function over the body bytes. -/
def doDownload (H : List Nat → List Nat) (sha256exp : String) (w : DLWire) : DLOutcome :=
  match w with
  | .netErr =>
    { result := .error .requestFailed
      tmpCreated := false, tmpRemoved := false, published := false }
  | .resp status body =>
    if status ≠ 200 then
      if status ≥ 500 then
        { result := .error (.serverError status)
          tmpCreated := false, tmpRemoved := false, published := false }
      else
        { result := .error (.unexpectedStatus status)
          tmpCreated := false, tmpRemoved := false, published := false }
    else
      match body with
      | .copyErr =>
        { result := .error .writeFailed
          tmpCreated := true, tmpRemoved := true, published := false }
      | .bytes content =>
        if sha256exp ≠ "" then
          let got := hexEncode (H content)
          if got ≠ sha256exp then
            { result := .error (.shaMismatch sha256exp got)
              tmpCreated := true, tmpRemoved := true, published := false }
          else
            { result := .ok content.length
              tmpCreated := true, tmpRemoved := false, published := true }
        else
          { result := .ok content.length
            tmpCreated := true, tmpRemoved := false, published := true }

/-- Final outcome of `downloadWithRetry`. -/
inductive DLFinal where
  | permanent (e : DLErr)
  /-- "after %d attempts: %w" -/
  | exhausted (last : Option DLErr)
deriving DecidableEq, Repr

/-- The retry loop of `downloadWithRetry` (`maxRetries = 3`), with the
total attempt count and the backoff waits in milliseconds. -/
def downloadAux (H : List Nat → List Nat) (sha256exp : String) (oracle : Nat → DLWire) :
    Nat → Nat → Option DLErr →
    Except DLFinal Nat × Nat × List Nat
  | attempt, 0, last => (.error (.exhausted last), attempt, [])
  | attempt, remaining + 1, _ =>
    let waits : List Nat := if attempt > 0 then [2 ^ attempt * 500] else []
    match (doDownload H sha256exp (oracle attempt)).result with
    | .ok size => (.ok size, attempt + 1, waits)
    | .error e =>
      if e.retryable then
        let (r, n, bs) := downloadAux H sha256exp oracle (attempt + 1) remaining (some e)
        (r, n, waits ++ bs)
      else (.error (.permanent e), attempt + 1, waits)

/-- `downloadWithRetry`: up to 3 attempts with exponential backoff; only
transient errors are retried. -/
def downloadWithRetry (H : List Nat → List Nat) (sha256exp : String)
    (oracle : Nat → DLWire) : Except DLFinal Nat × Nat × List Nat :=
  downloadAux H sha256exp oracle 0 3 none

/-- Claim-side comparison for C5: case-insensitive equality of hex
strings. -/
def eqIgnoreCase (a b : String) : Bool :=
  a.data.map Char.toLower = b.data.map Char.toLower

/-! ## Path algebra (Go `path/filepath` on Unix)

`filepath.Clean`, `filepath.Join` and `filepath.Abs`, modelled lexically
for slash-separated paths (`Abs` resolves a relative path against a `cwd`
parameter, as `filepath.Join(wd, path)` does; `os.Getwd` is assumed to
succeed). -/

/-- One step of `filepath.Clean`'s segment processing: `.` and empty
segments vanish, `..` pops a previous segment (or is dropped at the root of
a rooted path, or accumulates in a relative one). -/
def cleanStep (rooted : Bool) (out : List String) (seg : String) : List String :=
  if seg = "" || seg = "." then out
  else if seg = ".." then
    match out with
    | last :: restOut => if last = ".." then seg :: out else restOut
    | [] => if rooted then [] else [".."]
  else seg :: out

/-- Model of `filepath.Clean` for Unix paths. -/
def cleanPath (path : String) : String :=
  if path = "" then "."
  else
    let rooted := hasPrefixStr path "/"
    let segs := ((splitOnStr path '/').foldl (cleanStep rooted) []).reverse
    let body := String.intercalate "/" segs
    if rooted then (if body = "" then "/" else "/" ++ body)
    else (if body = "" then "." else body)

/-- Model of `filepath.Join`: drop empty elements, join with `/`, clean. -/
def joinPaths (elems : List String) : String :=
  let ne := elems.filter (fun e => e ≠ "")
  if ne.isEmpty then "" else cleanPath (String.intercalate "/" ne)

/-- `filepath.Join` of two elements. -/
def joinPath (a b : String) : String :=
  joinPaths [a, b]

/-- Model of `filepath.Abs`: clean an already-rooted path, otherwise join
onto the working directory. -/
def absPath (cwd p : String) : String :=
  if hasPrefixStr p "/" then cleanPath p else joinPath cwd p

/-! ## Wheel installer (src/unnamed/part_002, package installer)

`resolveDestination`, `baseForCategory`, `isInsideDir` and the extraction
loop of `installWheel`, translated from the Go source.  The filesystem is
idealized: directory creation, file writes, permission changes and hashing
always succeed (their `IOError` paths are orthogonal to the claims), and
the write effects are returned as the list of destination paths in write
order.  `InstallConsoleScripts` performs its own disk I/O (it reads the
extracted `entry_points.txt`); it is modelled as an oracle giving either
its error or the list of launcher paths it writes.  RECORD bookkeeping is
not modelled (no claim observes it). -/

/-- `fileCategory`. -/
inductive FileCategory where
  | sitePackages
  | scripts
  | data
  | skip
deriving DecidableEq, Repr

/-- The target-environment description (`python.Environment`, observed
fields). -/
structure PyEnvModel where
  sitePackages : String
  prefixDir : String
deriving DecidableEq, Repr

/-- `resolveDestination` determines the target path and category for a
wheel entry: `.data/` entries are routed by their bucket
(`purelib`/`platlib` → site-packages, `scripts` → `<prefix>/bin`,
`data` → `<prefix>`, `headers` → `<prefix>/include`, unknown → skip);
everything else goes to site-packages. -/
def resolveDestination (env : PyEnvModel) (name : String) : String × FileCategory :=
  match indexSub name ".data/" with
  | none => (joinPath env.sitePackages name, .sitePackages)
  | some dataIdx =>
    let remainder := String.mk (name.data.drop (dataIdx + 6))
    match indexSub remainder "/" with
    | none => ("", .skip)
    | some slashIdx =>
      let subdir := String.mk (remainder.data.take slashIdx)
      let rest := String.mk (remainder.data.drop (slashIdx + 1))
      if rest = "" then ("", .skip)
      else if subdir = "purelib" || subdir = "platlib" then
        (joinPath env.sitePackages rest, .sitePackages)
      else if subdir = "scripts" then
        (joinPaths [env.prefixDir, "bin", rest], .scripts)
      else if subdir = "data" then
        (joinPath env.prefixDir rest, .data)
      else if subdir = "headers" then
        (joinPaths [env.prefixDir, "include", rest], .data)
      else ("", .skip)

/-- `baseForCategory` returns the base directory for zip-slip
validation. -/
def baseForCategory (env : PyEnvModel) (cat : FileCategory) : String :=
  match cat with
  | .sitePackages => env.sitePackages
  | .scripts => env.prefixDir
  | .data => env.prefixDir
  | .skip => env.sitePackages

/-- `isInsideDir` checks that `path` is inside `dir` after making both
absolute. -/
def isInsideDir (cwd path dir : String) : Bool :=
  let absP := absPath cwd path
  let absD := absPath cwd dir
  hasPrefixStr absP (absD ++ "/") || absP = absD

/-- A zip archive entry (name and directory flag; contents are irrelevant
to the claims). -/
structure ZipEntry where
  name : String
  isDir : Bool
deriving DecidableEq, Repr

/-- Installer errors, one per `fmt.Errorf` site the model can reach. -/
inductive InstallErr where
  /-- "zip slip detected: %s resolves outside %s" -/
  | unsafeArchive (entryName base : String)
  /-- "no .dist-info directory found in %s" -/
  | missingMetadata
  /-- "installing console scripts: %w" -/
  | consoleScripts (err : String)
deriving DecidableEq, Repr

/-- The extraction loop of `installWheel`: route each regular-file entry,
check zip-slip safety against the category base, then write it; track the
`.dist-info/` directory.  Returns the accumulated writes, the dist-info
directory and an error when one stops the loop. -/
def installLoop (cwd : String) (env : PyEnvModel) :
    List ZipEntry → List String → String →
    List String × String × Option InstallErr
  | [], writes, distInfo => (writes, distInfo, none)
  | f :: rest, writes, distInfo =>
    if f.isDir then installLoop cwd env rest writes distInfo
    else
      let (destPath, cat) := resolveDestination env f.name
      if destPath = "" then installLoop cwd env rest writes distInfo
      else
        let base := baseForCategory env cat
        if !isInsideDir cwd destPath base then
          (writes, distInfo, some (.unsafeArchive f.name base))
        else
          let distInfo' :=
            if containsSub f.name ".dist-info/" then
              joinPath env.sitePackages (splitFirst f.name "/").1
            else distInfo
          installLoop cwd env rest (writes ++ [destPath]) distInfo'

/-- `installWheel`: the extraction loop, the `.dist-info` presence check,
the `INSTALLER` write, console-script generation (an oracle, see the
section comment) and the `RECORD` write.  Returns all paths written, and
the error if any. -/
def installWheel (cwd : String) (env : PyEnvModel) (entries : List ZipEntry)
    (scriptsOracle : Except String (List String)) :
    List String × Option InstallErr :=
  match installLoop cwd env entries [] "" with
  | (writes, _, some e) => (writes, some e)
  | (writes, distInfo, none) =>
    if distInfo = "" then (writes, some .missingMetadata)
    else
      let writes := writes ++ [joinPath distInfo "INSTALLER"]
      match scriptsOracle with
      | .error e => (writes, some (.consoleScripts e))
      | .ok scriptPaths =>
        (writes ++ scriptPaths ++ [joinPath distInfo "RECORD"], none)

/-! ## Wheel cache (src/README.md, `(*cache.Manager).Get`)

The cache `Get` operation, translated from the implementation shown in the
repository README.  The filesystem is an association list from paths to
nodes; a file node carries `some digest` (its SHA-256 hex) or `none` when
hashing it fails.  `Get` returns the updated filesystem (a stale entry may
be removed), the path and the hit flag. -/

/-- A filesystem node for the cache model. -/
inductive FNode where
  | dirNode
  | fileNode (digest : Option String)
deriving DecidableEq, Repr

/-- Remove a path from the filesystem. -/
def removePath (fs : List (String × FNode)) (path : String) : List (String × FNode) :=
  fs.filter (fun p => p.1 ≠ path)

/-- `(*Manager).Get`: probe `dir/filename`; a miss when absent or a
directory; with a non-empty expected digest, a hash failure or a mismatch
removes the stale file and reports a miss; otherwise a hit with the
path. -/
def cacheGet (fs : List (String × FNode)) (dir filename expected : String) :
    List (String × FNode) × String × Bool :=
  let path := joinPath dir filename
  match lookupA fs path with
  | none => (fs, "", false)
  | some .dirNode => (fs, "", false)
  | some (.fileNode digest?) =>
    if expected ≠ "" then
      match digest? with
      | none => (removePath fs path, "", false)
      | some got =>
        if got ≠ expected then (removePath fs path, "", false)
        else (fs, path, true)
    else (fs, path, true)

/-! ## Claim C2: pre-release handling in best-version selection -/

/-- C2: the claim (and the doc comment of `FindBestVersion`, "Pre-release
versions are excluded unless no stable version matches") require a fallback
to the highest satisfying pre-release when no stable candidate satisfies
the specifiers.  The code skips every pre-release unconditionally: with
candidates `["1.0.0", "3.0.0a1"]` and specifier `>=2.0`, the only
satisfying candidate is the pre-release `3.0.0a1`, yet selection reports no
compatible version (the empty string) instead of falling back to it. -/
theorem C2_no_prerelease_fallback :
    FindBestVersion ["1.0.0", "3.0.0a1"] [">=2.0"] = .ok "" ∧
    (∀ p ∈ [("3.0.0a1", [">=2.0"])],
      (parseVersion p.1).any isPreRelease = true ∧
      MatchesAll p.1 p.2 = .ok true) := by
  refine ⟨by rfl, ?_⟩
  intro p hp
  simp only [List.mem_singleton] at hp
  subst hp
  exact ⟨by rfl, by rfl⟩

/-! ## Claim C7: candidate versions from the releases map -/

/-- A release file that is yanked (all other fields arbitrary). -/
def yankedFile : PyURL :=
  { filename := "w-1.0-py3-none-any.whl", url := "u"
    packageType := "bdist_wheel", sha256 := "", yanked := true }

/-- A package whose sole release version has only yanked files. -/
def infoAllYanked : PackageInfo :=
  { info := { version := "1.0", requiresDist := [] }
    urls := [yankedFile]
    releases := [("1.0", [yankedFile])] }

/-- C7 counterexample: the claim says a version all of whose files are
yanked is never a candidate.  In the code `availableVersions` only requires
a non-empty file list and never reads the yanked flag: for a package whose
single version `1.0` has exactly one yanked file, the candidate list is
`["1.0"]`, not `[]`. -/
theorem C7_counterexample :
    availableVersions infoAllYanked = ["1.0"] ∧
    infoAllYanked.releases.all (fun p => p.2.all (fun f => f.yanked)) = true ∧
    infoAllYanked.releases ≠ [] := by
  exact ⟨by rfl, by rfl, by simp [infoAllYanked]⟩

/-- C7 as amended: when the releases map is non-empty the candidate list
contains exactly the versions with at least one file, yanked or not; when
the releases map is absent it falls back to the single latest version when
that is non-empty. -/
theorem C7_available_versions (info : PackageInfo) :
    (info.releases ≠ [] →
      ∀ v : String, v ∈ availableVersions info ↔
        ∃ fs, (v, fs) ∈ info.releases ∧ fs ≠ []) ∧
    (info.releases = [] →
      availableVersions info =
        if info.info.version ≠ "" then [info.info.version] else []) := by
  constructor
  · intro hne v
    have hlen : info.releases.length > 0 := by
      cases h : info.releases with
      | nil => exact absurd h hne
      | cons a l => simp [h]
    simp only [availableVersions, if_pos hlen, List.mem_map, List.mem_filter]
    constructor
    · rintro ⟨⟨v', fs⟩, ⟨hmem, hfs⟩, rfl⟩
      refine ⟨fs, hmem, ?_⟩
      intro h
      subst h
      simp at hfs
    · rintro ⟨fs, hmem, hfs⟩
      refine ⟨(v, fs), ⟨hmem, ?_⟩, rfl⟩
      simpa [List.length_pos] using hfs
  · intro hemp
    simp [availableVersions, hemp]

/-- Witness for `C7_available_versions` at concrete inputs. -/
theorem C7_available_versions_witness :
    ("1.0" ∈ availableVersions infoAllYanked) ∧
    (availableVersions
      { info := { version := "9.9", requiresDist := [] }, urls := [], releases := [] }
      = ["9.9"]) :=
  ⟨((C7_available_versions infoAllYanked).1 (by simp [infoAllYanked]) "1.0").mpr
      ⟨[yankedFile], by simp [infoAllYanked], by simp⟩,
    (C7_available_versions _).2 rfl⟩

/-! ## Claim C4: retry counts and backoff waits -/

/-- A minimal package metadata value for concrete retry runs. -/
def infoC4 : PackageInfo :=
  { info := { version := "1.0", requiresDist := [] }, urls := [], releases := [] }

/-- PyPI oracle: two 503 responses, then a good one. -/
def pyOracleC4 : Nat → PyWire :=
  fun n => if n < 2 then .resp 503 .readErr else .resp 200 (.json infoC4)

/-- Download oracle: two 503 responses, then a 3-byte body. -/
def dlOracleC4 : Nat → DLWire :=
  fun n => if n < 2 then .resp 503 (.bytes []) else .resp 200 (.bytes [9, 9, 9])

/-- C4 counterexample: in the two-transient-failures-then-success run both
loops issue exactly 3 requests, but the backoff waits are 1000 ms and
2000 ms (the source computes `2^attempt × 500` ms for retry attempts 1 and
2), not the 500 ms and 1000 ms the claim states. -/
theorem C4_counterexample :
    fetch pyOracleC4 = (.ok infoC4, 3, [1000, 2000]) ∧
    downloadWithRetry (fun _ => []) "" dlOracleC4 = (.ok 3, 3, [1000, 2000]) ∧
    ([1000, 2000] : List Nat) ≠ [500, 1000] :=
  ⟨rfl, rfl, by decide⟩

/-- Backoff schedule of either retry loop as a function of the attempt
count: before the k-th retry (k ≥ 1) the loop waits `2^k × 500` ms. -/
def backoffSchedule (attempts : Nat) : List Nat :=
  (List.range (attempts - 1)).map (fun k => 2 ^ (k + 1) * 500)

/-- Shape of the waits issued by `fetchAux` from a given starting attempt
index: one wait of `2^k × 500` ms before each executed attempt `k > 0`. -/
theorem fetchAux_spec (oracle : Nat → PyWire) :
    ∀ remaining attempt last,
      attempt ≤ (fetchAux oracle attempt remaining last).2.1 ∧
      (fetchAux oracle attempt remaining last).2.1 ≤ attempt + remaining ∧
      (fetchAux oracle attempt remaining last).2.2 =
        ((List.range' attempt ((fetchAux oracle attempt remaining last).2.1 - attempt)).filter
          (fun k => 0 < k)).map (fun k => 2 ^ k * 500) := by
  intro remaining
  induction remaining with
  | zero =>
    intro attempt last
    simp [fetchAux]
  | succ rem ih =>
    intro attempt last
    rcases hreq : doRequest (oracle attempt) with e | info
    · rcases hr : e.retryable with _ | _
      · simp only [fetchAux, hreq, hr, Bool.false_eq_true, if_false]
        refine ⟨Nat.le_succ attempt, by omega, ?_⟩
        simp only [Nat.add_sub_cancel_left, List.range'_one, List.filter_cons,
          List.filter_nil]
        rcases Nat.eq_zero_or_pos attempt with h | h <;> simp [h]
      · obtain ⟨h1, h2, h3⟩ := ih (attempt + 1) (some e)
        rcases hfa : fetchAux oracle (attempt + 1) rem (some e) with ⟨r, n, bs⟩
        rw [hfa] at h1 h2 h3
        simp only at h1 h2 h3
        simp only [fetchAux, hreq, hr, if_true, hfa]
        refine ⟨by omega, by omega, ?_⟩
        have hrange : List.range' attempt (n - attempt) =
            attempt :: List.range' (attempt + 1) (n - (attempt + 1)) := by
          have heq : n - attempt = (n - (attempt + 1)) + 1 := by omega
          rw [heq, List.range'_succ]
        simp only [hrange, List.filter_cons]
        rcases Nat.eq_zero_or_pos attempt with h | h
        · simp [h, h3]
        · rw [decide_eq_true (by omega : 0 < attempt)]
          simp [h, h3]
    · simp only [fetchAux, hreq]
      refine ⟨Nat.le_succ attempt, by omega, ?_⟩
      simp only [Nat.add_sub_cancel_left, List.range'_one, List.filter_cons,
        List.filter_nil]
      rcases Nat.eq_zero_or_pos attempt with h | h <;> simp [h]

/-- Shape of the waits issued by `downloadAux` (same argument as
`fetchAux_spec`). -/
theorem downloadAux_spec (H : List Nat → List Nat) (sha : String) (oracle : Nat → DLWire) :
    ∀ remaining attempt last,
      attempt ≤ (downloadAux H sha oracle attempt remaining last).2.1 ∧
      (downloadAux H sha oracle attempt remaining last).2.1 ≤ attempt + remaining ∧
      (downloadAux H sha oracle attempt remaining last).2.2 =
        ((List.range' attempt
          ((downloadAux H sha oracle attempt remaining last).2.1 - attempt)).filter
          (fun k => 0 < k)).map (fun k => 2 ^ k * 500) := by
  intro remaining
  induction remaining with
  | zero =>
    intro attempt last
    simp [downloadAux]
  | succ rem ih =>
    intro attempt last
    rcases hreq : (doDownload H sha (oracle attempt)).result with e | size
    · rcases hr : e.retryable with _ | _
      · simp only [downloadAux, hreq, hr, Bool.false_eq_true, if_false]
        refine ⟨Nat.le_succ attempt, by omega, ?_⟩
        simp only [Nat.add_sub_cancel_left, List.range'_one, List.filter_cons,
          List.filter_nil]
        rcases Nat.eq_zero_or_pos attempt with h | h <;> simp [h]
      · obtain ⟨h1, h2, h3⟩ := ih (attempt + 1) (some e)
        rcases hfa : downloadAux H sha oracle (attempt + 1) rem (some e) with ⟨r, n, bs⟩
        rw [hfa] at h1 h2 h3
        simp only at h1 h2 h3
        simp only [downloadAux, hreq, hr, if_true, hfa]
        refine ⟨by omega, by omega, ?_⟩
        have hrange : List.range' attempt (n - attempt) =
            attempt :: List.range' (attempt + 1) (n - (attempt + 1)) := by
          have heq : n - attempt = (n - (attempt + 1)) + 1 := by omega
          rw [heq, List.range'_succ]
        simp only [hrange, List.filter_cons]
        rcases Nat.eq_zero_or_pos attempt with h | h
        · simp [h, h3]
        · rw [decide_eq_true (by omega : 0 < attempt)]
          simp [h, h3]
    · simp only [downloadAux, hreq]
      refine ⟨Nat.le_succ attempt, by omega, ?_⟩
      simp only [Nat.add_sub_cancel_left, List.range'_one, List.filter_cons,
        List.filter_nil]
      rcases Nat.eq_zero_or_pos attempt with h | h <;> simp [h]

/-- The wait schedule of a run starting at attempt 0. -/
theorem backoff_shape (n : Nat) :
    ((List.range' 0 n).filter (fun k => 0 < k)).map (fun k : Nat => 2 ^ k * 500) =
      backoffSchedule n := by
  cases n with
  | zero => simp [backoffSchedule]
  | succ m =>
    have h0 : List.range' 0 (m + 1) = 0 :: List.range' 1 m := List.range'_succ ..
    rw [h0]
    simp only [List.filter_cons]
    rw [decide_eq_false (by omega : ¬ (0:Nat) < 0)]
    have hall : (List.range' 1 m).filter (fun k => 0 < k) = List.range' 1 m := by
      apply List.filter_eq_self.mpr
      intro a ha
      have := List.mem_range'.mp ha
      simp only [decide_eq_true_eq]
      omega
    rw [if_neg (by simp), hall, List.range'_eq_map_range]
    simp only [List.map_map, backoffSchedule, Nat.add_sub_cancel]
    apply List.map_congr_left
    intro a _
    simp [Nat.add_comm]

/-- C4 as amended: both the index client's fetch and the downloader's retry
loop make at most 3 attempts in total, and before the k-th retry they wait
500 ms × 2^k — hence 1000 ms and 2000 ms in a run with two transient
failures (the two concrete scenario runs are restated as conjuncts).  The
claim's 500 ms × 2^(k-1) schedule does not match the source. -/
theorem C4_retry_attempts_and_backoffs :
    ∀ (po : Nat → PyWire) (H : List Nat → List Nat) (sha : String) (dlo : Nat → DLWire),
      ((fetch po).2.1 ≤ 3 ∧
        (fetch po).2.2 = backoffSchedule (fetch po).2.1) ∧
      ((downloadWithRetry H sha dlo).2.1 ≤ 3 ∧
        (downloadWithRetry H sha dlo).2.2 =
          backoffSchedule (downloadWithRetry H sha dlo).2.1) ∧
      fetch pyOracleC4 = (.ok infoC4, 3, backoffSchedule 3) ∧
      downloadWithRetry (fun _ => []) "" dlOracleC4 = (.ok 3, 3, backoffSchedule 3) := by
  intro po H sha dlo
  obtain ⟨_, hf2, hf3⟩ := fetchAux_spec po 3 0 none
  obtain ⟨_, hd2, hd3⟩ := downloadAux_spec H sha dlo 3 0 none
  refine ⟨⟨hf2, ?_⟩, ⟨hd2, ?_⟩, rfl, rfl⟩
  · rw [show fetch po = fetchAux po 0 3 none from rfl, hf3, Nat.sub_zero, backoff_shape]
  · rw [show downloadWithRetry H sha dlo = downloadAux H sha dlo 0 3 none from rfl,
      hd3, Nat.sub_zero, backoff_shape]

/-! ## Claim C5: hash-mismatch handling in the downloader -/

/-- A stand-in hash function with a fixed one-byte digest (the claims hold
for every `H`; a concrete one is needed for closed statements). -/
def hashC5 : List Nat → List Nat := fun _ => [171]

/-- C5 counterexample: the claim describes the digest comparison as
case-insensitive hex.  The code compares the lowercase hex encoding against
the expected string with exact string equality: for an expected digest `AB`
whose value equals the computed digest `ab` up to case, the comparison is a
case-insensitive match, yet the download deletes the temp file and fails
permanently with an integrity error after exactly one attempt. -/
theorem C5_counterexample :
    eqIgnoreCase (hexEncode (hashC5 [1, 2, 3])) "AB" = true ∧
    (doDownload hashC5 "AB" (.resp 200 (.bytes [1, 2, 3]))).result =
      .error (.shaMismatch "AB" "ab") ∧
    (doDownload hashC5 "AB" (.resp 200 (.bytes [1, 2, 3]))).tmpRemoved = true ∧
    downloadWithRetry hashC5 "AB" (fun _ => .resp 200 (.bytes [1, 2, 3])) =
      (.error (.permanent (.shaMismatch "AB" "ab")), 1, []) :=
  ⟨rfl, rfl, rfl, rfl⟩

/-- C5 as amended: for every download task with a non-empty expected
digest, if the lowercase hex encoding of the computed digest differs from
the expected digest as an exact (case-sensitive) string, the temp file is
deleted, nothing is published, and the task fails permanently with the
integrity error after exactly one network attempt and no backoff wait. -/
theorem C5_hash_mismatch_permanent (H : List Nat → List Nat) (sha : String)
    (oracle : Nat → DLWire) (body : List Nat)
    (h0 : oracle 0 = .resp 200 (.bytes body))
    (hsha : sha ≠ "")
    (hne : hexEncode (H body) ≠ sha) :
    (doDownload H sha (oracle 0)).result =
      .error (.shaMismatch sha (hexEncode (H body))) ∧
    (doDownload H sha (oracle 0)).tmpRemoved = true ∧
    (doDownload H sha (oracle 0)).published = false ∧
    downloadWithRetry H sha oracle =
      (.error (.permanent (.shaMismatch sha (hexEncode (H body)))), 1, []) := by
  have hdo : doDownload H sha (oracle 0) =
      { result := .error (.shaMismatch sha (hexEncode (H body)))
        tmpCreated := true, tmpRemoved := true, published := false } := by
    rw [h0]
    simp [doDownload, hsha, hne]
  refine ⟨by rw [hdo], by rw [hdo], by rw [hdo], ?_⟩
  show downloadAux H sha oracle 0 3 none = _
  simp only [downloadAux, hdo, DLErr.retryable]
  simp

/-- Witness for `C5_hash_mismatch_permanent` at the concrete mismatch
run. -/
theorem C5_hash_mismatch_permanent_witness :
    (doDownload hashC5 "cc" ((fun _ => DLWire.resp 200 (.bytes [7])) 0)).tmpRemoved = true ∧
    downloadWithRetry hashC5 "cc" (fun _ => DLWire.resp 200 (.bytes [7])) =
      (.error (.permanent (.shaMismatch "cc" "ab")), 1, []) := by
  obtain ⟨_, h2, _, h4⟩ := C5_hash_mismatch_permanent hashC5 "cc"
    (fun _ => DLWire.resp 200 (.bytes [7])) [7] rfl (by decide) (by decide)
  exact ⟨h2, h4⟩

/-! ## Claim C9: cache lookup semantics -/

/-- C9: the cache lookup reports a hit iff the entry exists as a regular
file and, when the expected digest is non-empty, the file's SHA-256 equals
it; when the file exists but its digest mismatches or cannot be computed,
the stale file is removed and the lookup reports a miss; a hit returns the
cache path with the filesystem untouched. -/
theorem C9_cache_get (fs : List (String × FNode)) (dir filename expected : String) :
    ((cacheGet fs dir filename expected).2.2 = true ↔
      ∃ d, lookupA fs (joinPath dir filename) = some (.fileNode d) ∧
        (expected = "" ∨ d = some expected)) ∧
    (∀ node, lookupA fs (joinPath dir filename) = some (.fileNode node) →
      expected ≠ "" → node ≠ some expected →
      cacheGet fs dir filename expected =
        (removePath fs (joinPath dir filename), "", false)) ∧
    ((cacheGet fs dir filename expected).2.2 = true →
      cacheGet fs dir filename expected = (fs, joinPath dir filename, true)) := by
  refine ⟨?_, ?_, ?_⟩
  · rcases h : lookupA fs (joinPath dir filename) with _ | nd
    · simp [cacheGet, h]
    · cases nd with
      | dirNode => simp [cacheGet, h]
      | fileNode d? =>
        by_cases he : expected = ""
        · simp [cacheGet, h, he]
        · cases d? with
          | none => simp [cacheGet, h, he]
          | some got =>
            by_cases hg : got = expected
            · simp [cacheGet, h, he, hg]
            · simp [cacheGet, h, he, hg]
  · intro node h he hne
    cases node with
    | none => simp [cacheGet, h, he]
    | some got =>
      have : got ≠ expected := by
        intro hgot
        exact hne (by rw [hgot])
      simp [cacheGet, h, he, this]
  · rcases h : lookupA fs (joinPath dir filename) with _ | nd
    · simp [cacheGet, h]
    · cases nd with
      | dirNode => simp [cacheGet, h]
      | fileNode d? =>
        by_cases he : expected = ""
        · simp [cacheGet, h, he]
        · cases d? with
          | none => simp [cacheGet, h, he]
          | some got =>
            by_cases hg : got = expected
            · simp [cacheGet, h, he, hg]
            · simp [cacheGet, h, he, hg]

/-- Witness for `C9_cache_get`: a mismatching entry is removed and a
matching one is a hit, at concrete inputs. -/
theorem C9_cache_get_witness :
    cacheGet [("/c/w.whl", FNode.fileNode (some "aa"))] "/c" "w.whl" "bb" =
      (removePath [("/c/w.whl", FNode.fileNode (some "aa"))] (joinPath "/c" "w.whl"),
        "", false) ∧
    (cacheGet [("/c/w.whl", FNode.fileNode (some "aa"))] "/c" "w.whl" "aa").2.2 = true := by
  constructor
  · exact (C9_cache_get [("/c/w.whl", FNode.fileNode (some "aa"))] "/c" "w.whl" "bb").2.1
      (some "aa") (by rfl) (by decide) (by decide)
  · exact ((C9_cache_get [("/c/w.whl", FNode.fileNode (some "aa"))] "/c" "w.whl" "aa").1).mpr
      ⟨some "aa", by rfl, Or.inr rfl⟩

/-! ## Claim C6: `extra` handling in marker evaluation -/

/-- Claim-side reference for marker evaluation: the same `or`/`and`
structure, but with exactly the atomic terms referring to `extra` forced to
false while every other term is evaluated normally. -/
def evalMarkerPerTermRef (marker : String) (env : MarkerEnv) : Bool :=
  let marker := trimSpace marker
  if marker = "" then true
  else
    (splitOutside marker " or ").any (fun orGroup =>
      (splitOutside (trimSpace orGroup) " and ").all (fun term =>
        let t := trimSpace term
        if containsSub t "extra" then false else evalTerm t env))

/-- The marker of the counterexample: an `or` of a term true in the
environment with an `extra` term. -/
def markerC6 : String := "os_name == \"posix\" or extra == \"test\""

/-- The environment of the counterexample. -/
def envC6 : MarkerEnv :=
  { pythonVersion := "3.12", sysPlatform := "linux", osName := "posix" }

/-- C6 counterexample: under per-term `extra` falsification the marker
`os_name == "posix" or extra == "test"` evaluates to true (the first
disjunct holds in the environment), but `EvalMarker` returns false for the
whole marker: the code rejects any marker whose text contains the substring
`extra` before evaluating a single term. -/
theorem C6_counterexample :
    evalMarkerPerTermRef markerC6 envC6 = true ∧
    EvalMarker markerC6 envC6 = false :=
  ⟨rfl, rfl⟩

/-- `listIsPrefix` decides the prefix relation. -/
theorem listIsPrefix_iff (p : List Char) : ∀ cs, listIsPrefix p cs = true ↔ p <+: cs := by
  induction p with
  | nil => intro cs; simp [listIsPrefix]
  | cons x xs ih =>
    intro cs
    cases cs with
    | nil => simp [listIsPrefix]
    | cons c rest =>
      simp [listIsPrefix, List.cons_prefix_cons, ih, And.comm]

/-- `listFindSub` succeeds exactly on infixes. -/
theorem listFindSub_isSome_iff (pat : List Char) :
    ∀ cs, (listFindSub pat cs).isSome ↔ pat <:+: cs := by
  intro cs
  induction cs with
  | nil =>
    simp only [listFindSub]
    by_cases h : pat = [] <;> simp [h]
  | cons c rest ih =>
    simp only [listFindSub]
    cases hp : listIsPrefix pat (c :: rest) with
    | true =>
      simp only [if_true, Option.isSome_some, true_iff]
      exact ((listIsPrefix_iff pat (c :: rest)).mp hp).isInfix
    | false =>
      simp only [Bool.false_eq_true, if_false]
      have hmap : (Option.map (fun x => x + 1) (listFindSub pat rest)).isSome =
          (listFindSub pat rest).isSome := by
        cases listFindSub pat rest <;> rfl
      rw [hmap, ih, List.infix_cons_iff]
      constructor
      · exact Or.inr
      · rintro (h | hi)
        · have := (listIsPrefix_iff pat (c :: rest)).mpr h
          rw [hp] at this
          exact absurd this (by simp)
        · exact hi

/-- `containsSub` decides the substring (infix) relation. -/
theorem containsSub_iff (s pat : String) :
    containsSub s pat = true ↔ pat.data <:+: s.data := by
  simp [containsSub, listFindSub_isSome_iff]

/-- A substring occurrence inside an infix is an occurrence in the whole:
contrapositive form used below. -/
theorem containsSub_false_mono {t u : String} (hinf : t.data <:+: u.data)
    {pat : String} (h : containsSub u pat = false) : containsSub t pat = false := by
  by_contra hc
  have ht : containsSub t pat = true := by
    cases hcc : containsSub t pat
    · exact absurd hcc hc
    · rfl
  have : containsSub u pat = true :=
    (containsSub_iff u pat).mpr (((containsSub_iff t pat).mp ht).trans hinf)
  rw [this] at h
  exact absurd h (by simp)

/-- The trimmed string is an infix of the original. -/
theorem trimChars_infixOf (cs : List Char) : trimChars cs <:+: cs := by
  unfold trimChars
  have h1 : cs.dropWhile isSpaceChar <:+ cs := List.dropWhile_suffix _
  have h2 : ((cs.dropWhile isSpaceChar).reverse.dropWhile isSpaceChar) <:+
      (cs.dropWhile isSpaceChar).reverse := List.dropWhile_suffix _
  have h3 := List.reverse_prefix.mpr h2
  rw [List.reverse_reverse] at h3
  exact h3.isInfix.trans h1.isInfix

/-- `trimSpace s` is an infix of `s`. -/
theorem trimSpace_infixOf (s : String) : (trimSpace s).data <:+: s.data :=
  trimChars_infixOf s.data

/-- Every piece produced by `splitOutsideAux` is an infix of the
accumulator-plus-input. -/
theorem splitOutsideAux_infixOf (sep : List Char) :
    ∀ fuel cs depth quote acc piece,
      piece ∈ splitOutsideAux sep fuel cs depth quote acc →
      piece <:+: (acc.reverse ++ cs) := by
  intro fuel
  induction fuel with
  | zero =>
    intro cs depth quote acc piece hmem
    cases cs with
    | nil =>
      simp only [splitOutsideAux, List.mem_singleton] at hmem
      subst hmem
      exact (List.prefix_append _ _).isInfix
    | cons c rest =>
      simp only [splitOutsideAux, List.mem_singleton] at hmem
      subst hmem
      exact List.infix_rfl
  | succ fuel ih =>
    intro cs depth quote acc piece hmem
    cases cs with
    | nil =>
      simp only [splitOutsideAux, List.mem_singleton] at hmem
      subst hmem
      exact (List.prefix_append _ _).isInfix
    | cons c rest =>
      have hshift : ∀ d' q', piece ∈ splitOutsideAux sep fuel rest d' q' (c :: acc) →
          piece <:+: (acc.reverse ++ c :: rest) := by
        intro d' q' hm
        have := ih rest d' q' (c :: acc) piece hm
        rwa [List.reverse_cons, List.append_assoc, List.singleton_append] at this
      cases quote with
      | some q =>
        simp only [splitOutsideAux] at hmem
        exact hshift _ _ hmem
      | none =>
        simp only [splitOutsideAux] at hmem
        by_cases h1 : c = '"' || c = '\''
        · rw [if_pos h1] at hmem
          exact hshift _ _ hmem
        · rw [if_neg h1] at hmem
          by_cases h2 : c = '('
          · rw [if_pos h2] at hmem
            exact hshift _ _ hmem
          · rw [if_neg h2] at hmem
            by_cases h3 : c = ')'
            · rw [if_pos h3] at hmem
              exact hshift _ _ hmem
            · rw [if_neg h3] at hmem
              by_cases h4 : depth = 0 && listIsPrefix sep (c :: rest)
              · rw [if_pos h4] at hmem
                rcases List.mem_cons.mp hmem with h | h
                · subst h
                  exact (List.prefix_append _ _).isInfix
                · have := ih ((c :: rest).drop sep.length) depth none [] piece h
                  simp only [List.reverse_nil, List.nil_append] at this
                  exact this.trans ((List.drop_suffix _ _).isInfix.trans
                    (List.suffix_append _ _).isInfix)
              · rw [if_neg h4] at hmem
                exact hshift _ _ hmem

/-- Every piece of `splitOutside s sep` is a substring of `s`. -/
theorem splitOutside_infixOf (s sep piece : String) (h : piece ∈ splitOutside s sep) :
    piece.data <:+: s.data := by
  unfold splitOutside at h
  by_cases hs : sep.data.length > 0
  · rw [if_pos hs] at h
    rcases List.mem_map.mp h with ⟨l, hl, rfl⟩
    have := splitOutsideAux_infixOf sep.data s.data.length s.data 0 none [] l hl
    simpa using this
  · rw [if_neg hs] at h
    simp only [List.mem_singleton] at h
    subst h
    exact List.infix_rfl

/-- Congruence for `List.any`. -/
theorem anyCongr {α : Type} {l : List α} {f g : α → Bool}
    (h : ∀ a ∈ l, f a = g a) : l.any f = l.any g := by
  induction l with
  | nil => rfl
  | cons x xs ih =>
    simp only [List.any_cons, h x (List.mem_cons_self x xs)]
    rw [ih (fun a ha => h a (List.mem_cons_of_mem x ha))]

/-- Congruence for `List.all`. -/
theorem allCongr {α : Type} {l : List α} {f g : α → Bool}
    (h : ∀ a ∈ l, f a = g a) : l.all f = l.all g := by
  induction l with
  | nil => rfl
  | cons x xs ih =>
    simp only [List.all_cons, h x (List.mem_cons_self x xs)]
    rw [ih (fun a ha => h a (List.mem_cons_of_mem x ha))]

/-- C6 as amended: with no extras support, a non-empty marker whose text
contains the substring `extra` anywhere evaluates to false as a whole (none
of its terms, not even ones true in the environment, are evaluated); a
marker not containing that substring is evaluated exactly as the per-term
`or`/`and` combination of the claim (on such markers no term refers to
`extra`, so the per-term reference agrees with normal evaluation). -/
theorem C6_eval_marker_extra (marker : String) (env : MarkerEnv) :
    (trimSpace marker ≠ "" → containsSub (trimSpace marker) "extra" = true →
      EvalMarker marker env = false) ∧
    (containsSub (trimSpace marker) "extra" = false →
      EvalMarker marker env = evalMarkerPerTermRef marker env) := by
  constructor
  · intro hne hextra
    unfold EvalMarker
    simp [hne, hextra]
  · intro hno
    unfold EvalMarker evalMarkerPerTermRef
    by_cases hemp : trimSpace marker = ""
    · simp [hemp]
    · simp only [hemp, if_false, hno, Bool.false_eq_true]
      apply anyCongr
      intro orGroup hor
      apply allCongr
      intro term hterm
      have hinf : (trimSpace term).data <:+: (trimSpace marker).data :=
        ((trimSpace_infixOf term).trans
          (splitOutside_infixOf (trimSpace orGroup) " and " term hterm)).trans
          ((trimSpace_infixOf orGroup).trans
            (splitOutside_infixOf (trimSpace marker) " or " orGroup hor))
      rw [containsSub_false_mono hinf hno]
      simp

/-- Witness for `C6_eval_marker_extra` at concrete markers. -/
theorem C6_eval_marker_extra_witness :
    EvalMarker "extra == \"docs\"" envC6 = false ∧
    EvalMarker "os_name == \"posix\"" envC6 =
      evalMarkerPerTermRef "os_name == \"posix\"" envC6 :=
  ⟨(C6_eval_marker_extra "extra == \"docs\"" envC6).1 (by decide) (by decide),
    (C6_eval_marker_extra "os_name == \"posix\"" envC6).2 (by decide)⟩

/-! ## Claim C10: malformed candidate version strings -/

/-- The parse-and-pair step of `SortVersionsDesc`. -/
def versionPairs (versions : List String) : List (String × PepVersion) :=
  versions.filterMap (fun raw => (parseVersion raw).map (fun v => (raw, v)))

/-- `versionPairs` ignores unparseable strings, so pre-filtering them away
changes nothing. -/
theorem versionPairs_filter (versions : List String) :
    versionPairs versions =
      versionPairs (versions.filter (fun c => (parseVersion c).isSome)) := by
  induction versions with
  | nil => rfl
  | cons v rest ih =>
    cases hp : parseVersion v with
    | none => simp [versionPairs, List.filterMap_cons, List.filter_cons, hp] at ih ⊢; exact ih
    | some p => simp [versionPairs, List.filterMap_cons, List.filter_cons, hp] at ih ⊢; exact ih

/-- Members of `versionPairs` record their own parse. -/
theorem versionPairs_mem (versions : List String) (raw : String) (v : PepVersion)
    (h : (raw, v) ∈ versionPairs versions) : parseVersion raw = some v := by
  induction versions with
  | nil => simp [versionPairs] at h
  | cons x rest ih =>
    cases hp : parseVersion x with
    | none =>
      simp only [versionPairs, List.filterMap_cons, hp] at h
      exact ih h
    | some p =>
      simp only [versionPairs, List.filterMap_cons, hp, Option.map_some', List.mem_cons,
        Prod.mk.injEq] at h
      rcases h with ⟨h1, h2⟩ | h
      · rw [h1, hp, h2]
      · exact ih h

/-- Every string returned by `SortVersionsDesc` parses. -/
theorem sortVersionsDesc_mem_parses (versions : List String) (x : String)
    (h : x ∈ SortVersionsDesc versions) : (parseVersion x).isSome := by
  unfold SortVersionsDesc at h
  rcases List.mem_map.mp h with ⟨pair, hmem, rfl⟩
  have hperm := (List.perm_insertionSort versionGE
    (versions.filterMap (fun raw => (parseVersion raw).map (fun v => (raw, v)))))
  have : pair ∈ versionPairs versions := hperm.mem_iff.mp hmem
  rw [versionPairs_mem versions pair.1 pair.2 (by simpa using this)]
  rfl

/-- A non-empty success of the candidate loop is a member of its input. -/
theorem findBestLoop_mem (specs : List String) :
    ∀ l v, findBestLoop specs l = .ok v → v ≠ "" → v ∈ l := by
  intro l
  induction l with
  | nil =>
    intro v h hne
    simp only [findBestLoop] at h
    injection h with h
    exact absurd h.symm hne
  | cons x rest ih =>
    intro v h hne
    simp only [findBestLoop] at h
    by_cases hskip : (match parseVersion x with
      | some p => isPreRelease p
      | none => false) = true
    · rw [if_pos hskip] at h
      exact List.mem_cons_of_mem x (ih v h hne)
    · rw [if_neg hskip] at h
      rcases hm : MatchesAll x specs with e | b
      · rw [hm] at h; cases h
      · rw [hm] at h
        cases b with
        | true =>
          injection h with h
          rw [← h]
          exact List.mem_cons_self x rest
        | false => exact List.mem_cons_of_mem x (ih v h hne)

/-- An error of the candidate loop is an error of `MatchesAll` at one of
its members. -/
theorem findBestLoop_error (specs : List String) :
    ∀ l e, findBestLoop specs l = .error e → ∃ v ∈ l, MatchesAll v specs = .error e := by
  intro l
  induction l with
  | nil =>
    intro e h
    simp [findBestLoop] at h
  | cons x rest ih =>
    intro e h
    simp only [findBestLoop] at h
    by_cases hskip : (match parseVersion x with
      | some p => isPreRelease p
      | none => false) = true
    · rw [if_pos hskip] at h
      obtain ⟨v, hv, hm⟩ := ih e h
      exact ⟨v, List.mem_cons_of_mem x hv, hm⟩
    · rw [if_neg hskip] at h
      rcases hm : MatchesAll x specs with e' | b
      · rw [hm] at h
        injection h with h
        exact ⟨x, List.mem_cons_self x rest, by rw [hm, h]⟩
      · rw [hm] at h
        cases b with
        | true => cases h
        | false =>
          obtain ⟨v, hv, hmv⟩ := ih e h
          exact ⟨v, List.mem_cons_of_mem x hv, hmv⟩

/-- The specifier loop errors only on an unparseable specifier. -/
theorem matchesAllLoop_error (v : PepVersion) :
    ∀ specs e, matchesAllLoop v specs = .error e →
      ∃ s ∈ specs, parseSpecifiers s = none := by
  intro specs
  induction specs with
  | nil => intro e h; simp [matchesAllLoop] at h
  | cons s rest ih =>
    intro e h
    simp only [matchesAllLoop] at h
    cases hp : parseSpecifiers s with
    | none => exact ⟨s, List.mem_cons_self s rest, hp⟩
    | some ss =>
      rw [hp] at h
      have h' : (if !checkSpecs ss v then (Except.ok false : Except String Bool)
          else matchesAllLoop v rest) = .error e := h
      by_cases hc : (!checkSpecs ss v) = true
      · rw [if_pos hc] at h'; cases h'
      · rw [if_neg hc] at h'
        obtain ⟨s', hs', hps'⟩ := ih e h'
        exact ⟨s', List.mem_cons_of_mem s hs', hps'⟩

/-- C10: candidate version strings that fail PEP 440 parsing are silently
excluded before selection — `FindBestVersion` behaves exactly as if the
malformed candidates were absent, never returns a malformed string, and any
error it returns is caused by a specifier (never by a malformed
candidate). -/
theorem C10_malformed_candidates (cands specs : List String) :
    FindBestVersion cands specs =
      FindBestVersion (cands.filter (fun c => (parseVersion c).isSome)) specs ∧
    (∀ v, FindBestVersion cands specs = .ok v → v ≠ "" → (parseVersion v).isSome) ∧
    (∀ e, FindBestVersion cands specs = .error e →
      ∃ s ∈ specs, parseSpecifiers s = none) := by
  have hsort : SortVersionsDesc cands =
      SortVersionsDesc (cands.filter (fun c => (parseVersion c).isSome)) := by
    unfold SortVersionsDesc
    have := versionPairs_filter cands
    unfold versionPairs at this
    rw [this]
  refine ⟨?_, ?_, ?_⟩
  · unfold FindBestVersion
    rw [hsort]
  · intro v h hne
    have hmem := findBestLoop_mem specs (SortVersionsDesc cands) v h hne
    exact sortVersionsDesc_mem_parses cands v hmem
  · intro e h
    obtain ⟨v, hv, hm⟩ := findBestLoop_error specs (SortVersionsDesc cands) e h
    have hp := sortVersionsDesc_mem_parses cands v hv
    rcases hps : parseVersion v with _ | pv
    · rw [hps] at hp; cases hp
    · unfold MatchesAll at hm
      rw [hps] at hm
      exact matchesAllLoop_error pv specs e hm

/-- Witness for `C10_malformed_candidates` at a list with one malformed
candidate. -/
theorem C10_malformed_candidates_witness :
    FindBestVersion ["1.0", "invalid"] [] = FindBestVersion ["1.0"] [] ∧
    (parseVersion "1.0").isSome := by
  refine ⟨(C10_malformed_candidates ["1.0", "invalid"] []).1, ?_⟩
  exact (C10_malformed_candidates ["1.0", "invalid"] []).2.1 "1.0" (by rfl) (by decide)

/-! ## Claim C3: wheel selection -/

/-- Scanning a prefix of the priority list finds exactly the full-scan
index when it is below the bound. -/
theorem firstMatchIdx_take (tag : WheelTag) :
    ∀ (tags : List WheelTag) (n : Nat),
      firstMatchIdx tag (tags.take n) =
        (firstMatchIdx tag tags).bind (fun j => if j < n then some j else none) := by
  intro tags
  induction tags with
  | nil => intro n; simp [firstMatchIdx]
  | cons ct rest ih =>
    intro n
    cases n with
    | zero =>
      rw [List.take_zero]
      cases hm : firstMatchIdx tag (ct :: rest) with
      | none => simp [firstMatchIdx, hm]
      | some j => simp [firstMatchIdx, hm]
    | succ m =>
      simp only [List.take_succ_cons, firstMatchIdx]
      by_cases hmatch : tagMatches tag ct = true
      · simp [hmatch]
      · simp only [hmatch, Bool.false_eq_true, if_false, ih]
        cases hr : firstMatchIdx tag rest with
        | none => rfl
        | some j =>
          simp only [Option.map_some', Option.some_bind]
          by_cases hj : j < m
          · rw [if_pos hj, if_pos (by omega : j + 1 < m + 1)]
            rfl
          · rw [if_neg hj, if_neg (by omega : ¬ j + 1 < m + 1)]
            rfl

/-- Once the reference loop holds a priority-0 wheel, nothing replaces it
(ties are broken in favour of the first-seen wheel). -/
theorem selectWheelRefLoop_zero (tags : List WheelTag) :
    ∀ urls u, selectWheelRefLoop tags urls (some (0, u)) = some (0, u) := by
  intro urls
  induction urls with
  | nil => intro u; rfl
  | cons w rest ih =>
    intro u
    simp only [selectWheelRefLoop]
    cases hm : wheelMatchIndex tags w with
    | none => exact ih u
    | some i =>
      have : ¬ i < 0 := Nat.not_lt_zero i
      simp only [this, if_false]
      exact ih u

/-- The reference loop never loses a wheel it already holds. -/
theorem selectWheelRefLoop_some (tags : List WheelTag) :
    ∀ urls i u, (selectWheelRefLoop tags urls (some (i, u))).isSome = true := by
  intro urls
  induction urls with
  | nil => intro i u; rfl
  | cons w rest ih =>
    intro i u
    simp only [selectWheelRefLoop]
    cases hm : wheelMatchIndex tags w with
    | none => exact ih i u
    | some i' =>
      dsimp only
      by_cases hlt : i' < i
      · rw [if_pos hlt]; exact ih i' w
      · rw [if_neg hlt]; exact ih i u

/-- The scanning loop of `SelectWheel` agrees with the reference loop. -/
theorem selectWheelLoop_ref (tags : List WheelTag) :
    ∀ urls best bu found,
      (found = false → best = tags.length) →
      SelectWheelLoop tags urls best bu found =
        match selectWheelRefLoop tags urls (if found then some (best, bu) else none) with
        | some (j, v) => (j, v, true)
        | none => (best, bu, false) := by
  intro urls
  induction urls with
  | nil =>
    intro best bu found hinv
    cases found <;> simp [SelectWheelLoop, selectWheelRefLoop]
  | cons u rest ih =>
    intro best bu found hinv
    by_cases hwheel : u.packageType = "bdist_wheel"
    · cases hparse : ParseWheelFilename u.filename with
      | none =>
        have hloop : SelectWheelLoop tags (u :: rest) best bu found =
            SelectWheelLoop tags rest best bu found := by
          simp [SelectWheelLoop, hwheel, hparse]
        have href : wheelMatchIndex tags u = none := by
          simp [wheelMatchIndex, hwheel, hparse]
        rw [hloop, ih best bu found hinv]
        cases found <;> simp [selectWheelRefLoop, href]
      | some parsed =>
        obtain ⟨nm, ver, tag⟩ := parsed
        have href : wheelMatchIndex tags u = firstMatchIdx tag tags := by
          simp [wheelMatchIndex, hwheel, hparse]
        have hloopstep : SelectWheelLoop tags (u :: rest) best bu found =
            (match innerBest tag tags best with
              | some i =>
                if i = 0 then (0, u, true)
                else SelectWheelLoop tags rest i u true
              | none => SelectWheelLoop tags rest best bu found) := by
          simp [SelectWheelLoop, hwheel, hparse]
        cases found with
        | false =>
          have hbest : best = tags.length := hinv rfl
          have hinner : innerBest tag tags best = firstMatchIdx tag tags := by
            rw [hbest]
            unfold innerBest
            rw [List.take_length]
          have hrefstep : selectWheelRefLoop tags (u :: rest) none =
              (match firstMatchIdx tag tags with
                | some j => selectWheelRefLoop tags rest (some (j, u))
                | none => selectWheelRefLoop tags rest none) := by
            simp only [selectWheelRefLoop, href]
            cases firstMatchIdx tag tags <;> rfl
          cases hm : firstMatchIdx tag tags with
          | none =>
            rw [hloopstep, hinner, hm]
            simp only [Bool.false_eq_true, if_false, hrefstep, hm]
            simpa using ih best bu false hinv
          | some j =>
            rw [hloopstep, hinner, hm]
            simp only [Bool.false_eq_true, if_false, hrefstep, hm]
            by_cases hj : j = 0
            · subst hj
              rw [if_pos rfl, selectWheelRefLoop_zero]
            · rw [if_neg hj]
              have hih : SelectWheelLoop tags rest j u true =
                  match selectWheelRefLoop tags rest (some (j, u)) with
                  | some (j', v) => (j', v, true)
                  | none => (j, u, false) := by
                simpa using ih j u true (by intro h; cases h)
              rcases hsome : selectWheelRefLoop tags rest (some (j, u)) with _ | ⟨rj, rv⟩
              · exfalso
                have hs := selectWheelRefLoop_some tags rest j u
                rw [hsome] at hs
                cases hs
              · rw [hsome] at hih
                rw [hih]
        | true =>
          have hinner : innerBest tag tags best =
              (firstMatchIdx tag tags).bind (fun j => if j < best then some j else none) :=
            firstMatchIdx_take tag tags best
          have hrefstep : selectWheelRefLoop tags (u :: rest) (some (best, bu)) =
              (match firstMatchIdx tag tags with
                | some j => selectWheelRefLoop tags rest
                    (if j < best then some (j, u) else some (best, bu))
                | none => selectWheelRefLoop tags rest (some (best, bu))) := by
            simp only [selectWheelRefLoop, href]
            cases firstMatchIdx tag tags with
            | none => rfl
            | some j => dsimp only
          have hiftrue : (if true = true then some (best, bu) else none) = some (best, bu) := rfl
          cases hm : firstMatchIdx tag tags with
          | none =>
            rw [hloopstep, hinner, hm, Option.none_bind, hiftrue, hrefstep, hm]
            dsimp only
            have hih : SelectWheelLoop tags rest best bu true =
                match selectWheelRefLoop tags rest (some (best, bu)) with
                | some (j', v) => (j', v, true)
                | none => (best, bu, false) := by
              simpa using ih best bu true (by intro h; cases h)
            exact hih
          | some j =>
            rw [hloopstep, hinner, hm, Option.some_bind, hiftrue, hrefstep, hm]
            dsimp only
            by_cases hj : j < best
            · rw [if_pos hj, if_pos hj]
              dsimp only
              by_cases hj0 : j = 0
              · subst hj0
                rw [if_pos rfl, selectWheelRefLoop_zero]
              · rw [if_neg hj0]
                have hih : SelectWheelLoop tags rest j u true =
                    match selectWheelRefLoop tags rest (some (j, u)) with
                    | some (j', v) => (j', v, true)
                    | none => (j, u, false) := by
                  simpa using ih j u true (by intro h; cases h)
                rcases hsome : selectWheelRefLoop tags rest (some (j, u)) with _ | ⟨rj, rv⟩
                · exfalso
                  have hs := selectWheelRefLoop_some tags rest j u
                  rw [hsome] at hs
                  cases hs
                · rw [hsome] at hih
                  rw [hih]
            · rw [if_neg hj, if_neg hj]
              have hih : SelectWheelLoop tags rest best bu true =
                  match selectWheelRefLoop tags rest (some (best, bu)) with
                  | some (j', v) => (j', v, true)
                  | none => (best, bu, false) := by
                simpa using ih best bu true (by intro h; cases h)
              exact hih
    · have hloop : SelectWheelLoop tags (u :: rest) best bu found =
          SelectWheelLoop tags rest best bu found := by
        simp [SelectWheelLoop, hwheel]
      have href : wheelMatchIndex tags u = none := by
        simp [wheelMatchIndex, hwheel]
      rw [hloop, ih best bu found hinv]
      cases found <;> simp [selectWheelRefLoop, href]

/-- The wheel held by the reference loop always came from an update, so it
is a member wheel with a match index. -/
theorem selectWheelRefLoop_source (tags : List WheelTag) (urls0 : List PyURL) :
    ∀ urls acc res,
      (∀ p ∈ urls, p ∈ urls0) →
      (∀ i u, acc = some (i, u) →
        u ∈ urls0 ∧ wheelMatchIndex tags u = some i) →
      selectWheelRefLoop tags urls acc = some res →
      res.2 ∈ urls0 ∧ wheelMatchIndex tags res.2 = some res.1 := by
  intro urls
  induction urls with
  | nil =>
    intro acc res hsub hacc h
    exact hacc res.1 res.2 h
  | cons u rest ih =>
    intro acc res hsub hacc h
    simp only [selectWheelRefLoop] at h
    have hsub' : ∀ p ∈ rest, p ∈ urls0 :=
      fun p hp => hsub p (List.mem_cons_of_mem u hp)
    have hunew : ∀ i', wheelMatchIndex tags u = some i' →
        ∀ i'' u'', some (i', u) = some (i'', u'') →
        u'' ∈ urls0 ∧ wheelMatchIndex tags u'' = some i'' := by
      intro i' hm i'' u'' heq
      injection heq with heq
      rw [Prod.mk.injEq] at heq
      obtain ⟨h1, h2⟩ := heq
      rw [← h1, ← h2]
      exact ⟨hsub u (List.mem_cons_self u rest), hm⟩
    cases hm : wheelMatchIndex tags u with
    | none =>
      rw [hm] at h
      exact ih acc res hsub' hacc h
    | some i =>
      rw [hm] at h
      cases hai : acc with
      | none =>
        rw [hai] at h
        dsimp only at h
        exact ih (some (i, u)) res hsub' (hunew i hm) h
      | some p =>
        obtain ⟨bi, bu⟩ := p
        rw [hai] at h
        dsimp only at h
        by_cases hlt : i < bi
        · rw [if_pos hlt] at h
          exact ih (some (i, u)) res hsub' (hunew i hm) h
        · rw [if_neg hlt] at h
          exact ih (some (bi, bu)) res hsub'
            (fun i' u' heq => hacc i' u' (by rw [hai]; exact heq)) h

/-- C3: `SelectWheel` ignores non-wheel files and returns the first-seen
wheel whose compound tag matches a priority entry at the smallest index
across all wheels (a compound tag matches an entry iff each of the entry's
values is a member of the corresponding dot-separated set — this is
`tagMatches`, which both sides use); when no wheel matches it fails, never
falling back to a non-wheel file; and, being a pure function of its inputs,
the choice is deterministic. -/
theorem C3_select_wheel (urls : List PyURL) (tags : List WheelTag) :
    SelectWheel urls tags = selectWheelRef urls tags ∧
    (∀ u, SelectWheel urls tags = .ok u →
      u.packageType = "bdist_wheel" ∧ u ∈ urls) := by
  have hmain := selectWheelLoop_ref tags urls tags.length PyURL.zero false
    (fun _ => rfl)
  constructor
  · unfold SelectWheel selectWheelRef
    rw [hmain]
    simp only [Bool.false_eq_true, if_false]
    cases h : selectWheelRefLoop tags urls none with
    | none => rfl
    | some p => obtain ⟨j, v⟩ := p; rfl
  · intro u hok
    unfold SelectWheel at hok
    rw [hmain] at hok
    simp only [Bool.false_eq_true, if_false] at hok
    cases h : selectWheelRefLoop tags urls none with
    | none => rw [h] at hok; cases hok
    | some p =>
      obtain ⟨j, v⟩ := p
      rw [h] at hok
      simp only at hok
      injection hok with hok
      have hsrc := selectWheelRefLoop_source tags urls urls none (j, v)
        (fun p hp => hp) (by rintro i u' ⟨⟩) h
      have hpkg : v.packageType = "bdist_wheel" := by
        have hw := hsrc.2
        unfold wheelMatchIndex at hw
        by_cases hp : v.packageType = "bdist_wheel"
        · exact hp
        · rw [if_neg hp] at hw; cases hw
      rw [← hok]
      exact ⟨hpkg, hsrc.1⟩

/-- Witness for `C3_select_wheel` at a concrete release list. -/
theorem C3_select_wheel_witness :
    SelectWheel
      [{ PyURL.zero with filename := "p-1.0.tar.gz", packageType := "sdist" },
       { PyURL.zero with filename := "p-1.0-py3-none-any.whl", packageType := "bdist_wheel" }]
      [{ python := "py3", abi := "none", platform := "any" }] =
    selectWheelRef
      [{ PyURL.zero with filename := "p-1.0.tar.gz", packageType := "sdist" },
       { PyURL.zero with filename := "p-1.0-py3-none-any.whl", packageType := "bdist_wheel" }]
      [{ python := "py3", abi := "none", platform := "any" }] :=
  (C3_select_wheel _ _).1

/-! ## Claim C8: per-wheel atomicity of installation -/

/-- The target environment used in the concrete C8 runs. -/
def envC8 : PyEnvModel := { sitePackages := "/site", prefixDir := "/pfx" }

/-- C8 counterexample: a wheel whose first entry is safe and whose second
entry escapes the base directory.  `installWheel` fails with the
unsafe-archive error, but the first entry's file has already been written:
the write list is non-empty, so installation is not atomic per package. -/
theorem C8_counterexample :
    installWheel "/cwd" envC8
      [{ name := "pkg/a.py", isDir := false },
       { name := "../../evil.py", isDir := false }] (.ok []) =
      (["/site/pkg/a.py"], some (.unsafeArchive "../../evil.py" "/site")) ∧
    (["/site/pkg/a.py"] : List String) ≠ [] :=
  ⟨rfl, by decide⟩

/-- A clean prefix of the extraction loop composes with the rest of the
archive. -/
theorem installLoop_append (cwd : String) (env : PyEnvModel) :
    ∀ (pre rest : List ZipEntry) (ws0 : List String) (d0 : String) ws d,
      installLoop cwd env pre ws0 d0 = (ws, d, none) →
      installLoop cwd env (pre ++ rest) ws0 d0 = installLoop cwd env rest ws d := by
  intro pre
  induction pre with
  | nil =>
    intro rest ws0 d0 ws d h
    simp only [installLoop] at h
    injection h with h1 h
    injection h with h2 h
    rw [List.nil_append, h1, h2]
  | cons f pre' ih =>
    intro rest ws0 d0 ws d h
    by_cases hdir : f.isDir = true
    · have hstep : ∀ es, installLoop cwd env (f :: es) ws0 d0 = installLoop cwd env es ws0 d0 := by
        intro es
        simp [installLoop, hdir]
      rw [hstep] at h
      rw [List.cons_append, hstep]
      exact ih rest ws0 d0 ws d h
    · rcases hrd : resolveDestination env f.name with ⟨dest, cat⟩
      by_cases hempty : dest = ""
      · have hstep : ∀ es, installLoop cwd env (f :: es) ws0 d0 =
            installLoop cwd env es ws0 d0 := by
          intro es
          simp [installLoop, hdir, hrd, hempty]
        rw [hstep] at h
        rw [List.cons_append, hstep]
        exact ih rest ws0 d0 ws d h
      · by_cases hin : isInsideDir cwd dest (baseForCategory env cat) = true
        · have hstep : ∀ es, installLoop cwd env (f :: es) ws0 d0 =
              installLoop cwd env es (ws0 ++ [dest])
                (if containsSub f.name ".dist-info/" then
                  joinPath env.sitePackages (splitFirst f.name "/").1
                else d0) := by
            intro es
            simp [installLoop, hdir, hrd, hempty, hin]
          rw [hstep] at h
          rw [List.cons_append, hstep]
          exact ih rest _ _ ws d h
        · have hstep : installLoop cwd env (f :: pre') ws0 d0 =
              (ws0, d0, some (.unsafeArchive f.name (baseForCategory env cat))) := by
            simp [installLoop, hdir, hrd, hempty, hin]
          rw [hstep] at h
          injection h with h1 h
          injection h with h2 h
          cases h

/-- C8 as amended: installation of a wheel is not atomic.  When the
archive is a clean prefix followed by an entry whose destination escapes
the base directory for its category, `installWheel` fails with the
unsafe-archive error naming that entry and base, and the files on disk are
exactly the writes of the earlier entries: the offending entry and
everything after it are never written, but earlier files remain (so with an
unsafe first entry nothing is written, and with a safe entry before it that
file stays). -/
theorem C8_install_not_atomic (cwd : String) (env : PyEnvModel)
    (pre : List ZipEntry) (e : ZipEntry) (post : List ZipEntry)
    (oracle : Except String (List String)) (ws : List String) (d : String)
    (hpre : installLoop cwd env pre [] "" = (ws, d, none))
    (hdir : e.isDir = false)
    (hdest : (resolveDestination env e.name).1 ≠ "")
    (hout : isInsideDir cwd (resolveDestination env e.name).1
      (baseForCategory env (resolveDestination env e.name).2) = false) :
    installWheel cwd env (pre ++ e :: post) oracle =
      (ws, some (.unsafeArchive e.name
        (baseForCategory env (resolveDestination env e.name).2))) := by
  have hloop : installLoop cwd env (pre ++ e :: post) [] "" =
      (ws, d, some (.unsafeArchive e.name
        (baseForCategory env (resolveDestination env e.name).2))) := by
    rw [installLoop_append cwd env pre (e :: post) [] "" ws d hpre]
    rcases hrd : resolveDestination env e.name with ⟨dest, cat⟩
    rw [hrd] at hdest hout
    simp only at hdest hout
    simp [installLoop, hdir, hrd, hdest, hout]
  unfold installWheel
  rw [hloop]

/-- Witness for `C8_install_not_atomic`: the concrete two-entry archive of
the counterexample. -/
theorem C8_install_not_atomic_witness :
    installWheel "/cwd" envC8
      ([{ name := "pkg/a.py", isDir := false }] ++
        ({ name := "../../evil.py", isDir := false } : ZipEntry) :: []) (.ok []) =
      (["/site/pkg/a.py"], some (.unsafeArchive "../../evil.py"
        (baseForCategory envC8
          (resolveDestination envC8 "../../evil.py").2))) :=
  C8_install_not_atomic "/cwd" envC8
    [{ name := "pkg/a.py", isDir := false }]
    { name := "../../evil.py", isDir := false } [] (.ok [])
    ["/site/pkg/a.py"] "" (by rfl) (by rfl) (by decide) (by rfl)

/-! ## Claim C1: resolver constraint invariant and version conflicts -/

/-- A lookup miss on an association list means no binding with that key. -/
theorem lookupA_eq_none {α : Type} :
    ∀ (l : List (String × α)) (name : String), lookupA l name = none →
      ∀ v, (name, v) ∉ l := by
  intro l
  induction l with
  | nil =>
    intro name _ v h
    simp at h
  | cons p rest ih =>
    intro name hnone v hmem
    obtain ⟨k, w⟩ := p
    simp only [lookupA] at hnone
    by_cases hk : k = name
    · rw [if_pos hk] at hnone; cases hnone
    · rw [if_neg hk] at hnone
      rcases List.mem_cons.mp hmem with heq | hmem'
      · rw [Prod.mk.injEq] at heq
        exact hk heq.1.symm
      · exact ih name hnone v hmem'

/-- A lookup miss means the key is absent from the key list. -/
theorem lookupA_none_not_key {α : Type} :
    ∀ (l : List (String × α)) (name : String), lookupA l name = none →
      name ∉ l.map (·.1) := by
  intro l name hnone hmem
  rcases List.mem_map.mp hmem with ⟨p, hp, hpk⟩
  exact lookupA_eq_none l name hnone p.2 (by rw [← hpk]; exact hp)

/-- With `Nodup` keys, membership determines the lookup result. -/
theorem lookupA_of_mem {α : Type} :
    ∀ (l : List (String × α)), (l.map (·.1)).Nodup →
      ∀ name v, (name, v) ∈ l → lookupA l name = some v := by
  intro l
  induction l with
  | nil =>
    intro _ name v h
    simp at h
  | cons p rest ih =>
    intro hnd name v hmem
    obtain ⟨k, w⟩ := p
    simp only [List.map_cons, List.nodup_cons] at hnd
    obtain ⟨hknotin, hnd'⟩ := hnd
    rcases List.mem_cons.mp hmem with heq | hmem'
    · rw [Prod.mk.injEq] at heq
      obtain ⟨h1, h2⟩ := heq
      simp [lookupA, h1.symm, h2]
    · have hne : k ≠ name := by
        intro hkn
        apply hknotin
        rw [hkn]
        exact List.mem_map.mpr ⟨(name, v), hmem', rfl⟩
      simp only [lookupA, if_neg hne]
      exact ih hnd' name v hmem'

/-- `addConstraint` only changes the dequeued name's list. -/
theorem addConstraint_ne (constraints : String → List String) (req : Requirement)
    (n : String) (hne : n ≠ req.name) :
    addConstraint constraints req n = constraints n := by
  unfold addConstraint
  by_cases hs : req.specifier ≠ ""
  · rw [if_pos hs]
    exact if_neg hne
  · rw [if_neg hs]

/-- A non-empty success of the candidate loop satisfies all specifiers. -/
theorem findBestLoop_matches (specs : List String) :
    ∀ l v, findBestLoop specs l = .ok v → v ≠ "" →
      MatchesAll v specs = .ok true := by
  intro l
  induction l with
  | nil =>
    intro v h hne
    simp only [findBestLoop] at h
    injection h with h
    exact absurd h.symm hne
  | cons x rest ih =>
    intro v h hne
    simp only [findBestLoop] at h
    by_cases hskip : (match parseVersion x with
      | some p => isPreRelease p
      | none => false) = true
    · rw [if_pos hskip] at h
      exact ih v h hne
    · rw [if_neg hskip] at h
      rcases hm : MatchesAll x specs with e | b
      · rw [hm] at h; cases h
      · rw [hm] at h
        cases b with
        | true =>
          injection h with h
          rw [← h]
          exact hm
        | false => exact ih v h hne

/-- A successful `resolvePackage` chooses a version satisfying the
accumulated specifiers and records the requested name. -/
theorem resolvePackage_ok (g : String → Except String PackageInfo)
    (gv : String → String → Except String PackageInfo) (env : MarkerEnv)
    (name : String) (specs : List String) (pkg : ResolvedPackage) (deps : List String)
    (h : resolvePackage g gv env name specs = .ok (pkg, deps)) :
    pkg.name = name ∧ MatchesAll pkg.version specs = .ok true := by
  unfold resolvePackage at h
  rcases hg : g name with e | info
  · rw [hg] at h; cases h
  · rw [hg] at h
    dsimp only at h
    rcases hf : FindBestVersion (availableVersions info) specs with e | best
    · rw [hf] at h; cases h
    · rw [hf] at h
      dsimp only at h
      by_cases hb : best = ""
      · rw [if_pos hb] at h; cases h
      · rw [if_neg hb] at h
        rcases hd : fetchDeps gv info name best with e | ds
        · rw [hd] at h; cases h
        · rw [hd] at h
          dsimp only at h
          injection h with h
          rw [Prod.mk.injEq] at h
          obtain ⟨h1, _⟩ := h
          rw [← h1]
          refine ⟨rfl, ?_⟩
          unfold FindBestVersion at hf
          exact findBestLoop_matches specs _ best hf hb

/-- The loop invariant: resolved names are key-unique, each resolved
package records its key as its name, and each chosen version satisfies the
constraints accumulated so far for that name. -/
def ResolvedInv (resolved : List (String × ResolvedPackage))
    (constraints : String → List String) : Prop :=
  (resolved.map (·.1)).Nodup ∧
  ∀ p ∈ resolved, p.2.name = p.1 ∧
    MatchesAll p.2.version (constraints p.1) = .ok true

/-- The invariant survives a constraint append for an unresolved name. -/
theorem inv_after_miss (resolved : List (String × ResolvedPackage))
    (constraints : String → List String) (req : Requirement)
    (hinv : ResolvedInv resolved constraints)
    (hres : lookupA resolved req.name = none) :
    ResolvedInv resolved (addConstraint constraints req) := by
  obtain ⟨hnd, hmem⟩ := hinv
  refine ⟨hnd, ?_⟩
  intro p hp
  obtain ⟨hname, hmatch⟩ := hmem p hp
  have hk : p.1 ≠ req.name := by
    intro hkeq
    exact lookupA_none_not_key resolved req.name hres
      (hkeq ▸ List.mem_map_of_mem (·.1) hp)
  rw [addConstraint_ne constraints req p.1 hk]
  exact ⟨hname, hmatch⟩

/-- The invariant survives a successful constraint recheck of an
already-resolved name. -/
theorem inv_after_verify (resolved : List (String × ResolvedPackage))
    (constraints : String → List String) (req : Requirement) (pkg : ResolvedPackage)
    (hinv : ResolvedInv resolved constraints)
    (hres : lookupA resolved req.name = some pkg)
    (hok : MatchesAll pkg.version (addConstraint constraints req req.name) = .ok true) :
    ResolvedInv resolved (addConstraint constraints req) := by
  obtain ⟨hnd, hmem⟩ := hinv
  refine ⟨hnd, ?_⟩
  intro p hp
  obtain ⟨hname, hmatch⟩ := hmem p hp
  by_cases hk : p.1 = req.name
  · have hl : lookupA resolved p.1 = some p.2 :=
      lookupA_of_mem resolved hnd p.1 p.2 hp
    rw [hk, hres] at hl
    injection hl with hl
    refine ⟨hname, ?_⟩
    rw [hk, ← hl]
    exact hok
  · rw [addConstraint_ne constraints req p.1 hk]
    exact ⟨hname, hmatch⟩

/-- The invariant survives recording a freshly resolved package. -/
theorem inv_after_insert (resolved : List (String × ResolvedPackage))
    (constraints : String → List String) (req : Requirement) (pkg : ResolvedPackage)
    (hinv : ResolvedInv resolved constraints)
    (hres : lookupA resolved req.name = none)
    (hpkg : pkg.name = req.name)
    (hok : MatchesAll pkg.version (addConstraint constraints req req.name) = .ok true) :
    ResolvedInv (resolved ++ [(req.name, pkg)]) (addConstraint constraints req) := by
  obtain ⟨hnd, hmem⟩ := hinv
  constructor
  · rw [List.map_append, List.nodup_append]
    refine ⟨hnd, List.nodup_singleton _, ?_⟩
    intro k hk hk'
    simp only [List.map_cons, List.map_nil, List.mem_singleton] at hk'
    subst hk'
    exact lookupA_none_not_key resolved req.name hres hk
  · intro p hp
    rcases List.mem_append.mp hp with hp' | hp'
    · obtain ⟨hname, hmatch⟩ := hmem p hp'
      have hk : p.1 ≠ req.name := by
        intro hkeq
        exact lookupA_none_not_key resolved req.name hres
          (hkeq ▸ List.mem_map_of_mem (·.1) hp')
      rw [addConstraint_ne constraints req p.1 hk]
      exact ⟨hname, hmatch⟩
    · simp only [List.mem_singleton] at hp'
      subst hp'
      exact ⟨hpkg, hok⟩

/-- The constraint invariant is carried by the whole loop: a successful run
starting from an invariant state yields packages whose versions satisfy
their final accumulated constraints. -/
theorem resolveLoop_inv (g : String → Except String PackageInfo)
    (gv : String → String → Except String PackageInfo) (env : MarkerEnv) (noDeps : Bool) :
    ∀ fuel queue resolved constraints processing result cF,
      ResolvedInv resolved constraints →
      resolveLoopAux g gv env noDeps fuel queue resolved constraints processing =
        .ok (result, cF) →
      ∀ pkg ∈ result, MatchesAll pkg.version (cF pkg.name) = .ok true := by
  intro fuel
  induction fuel with
  | zero =>
    intro queue resolved constraints processing result cF hinv h
    cases queue with
    | nil =>
      simp only [resolveLoopAux] at h
      injection h with h
      rw [Prod.mk.injEq] at h
      obtain ⟨h1, h2⟩ := h
      intro pkg hpkg
      rw [← h1] at hpkg
      rcases List.mem_map.mp hpkg with ⟨p, hp, rfl⟩
      obtain ⟨hname, hmatch⟩ := hinv.2 p hp
      rw [← h2, hname]
      exact hmatch
    | cons req rest => simp [resolveLoopAux] at h
  | succ fuel ih =>
    intro queue resolved constraints processing result cF hinv h
    cases queue with
    | nil =>
      simp only [resolveLoopAux] at h
      injection h with h
      rw [Prod.mk.injEq] at h
      obtain ⟨h1, h2⟩ := h
      intro pkg hpkg
      rw [← h1] at hpkg
      rcases List.mem_map.mp hpkg with ⟨p, hp, rfl⟩
      obtain ⟨hname, hmatch⟩ := hinv.2 p hp
      rw [← h2, hname]
      exact hmatch
    | cons req rest =>
      simp only [resolveLoopAux] at h
      rcases hres : lookupA resolved req.name with _ | pkg
      · rw [hres] at h
        dsimp only at h
        by_cases hproc : processing req.name = true
        · rw [if_pos hproc] at h
          exact ih rest resolved (addConstraint constraints req) processing result cF
            (inv_after_miss resolved constraints req hinv hres) h
        · rw [if_neg hproc] at h
          rcases hrp : resolvePackage g gv env req.name
              (addConstraint constraints req req.name) with e | pd
          · rw [hrp] at h; cases h
          · obtain ⟨pkg, deps⟩ := pd
            rw [hrp] at h
            obtain ⟨hname, hmatch⟩ :=
              resolvePackage_ok g gv env req.name _ pkg deps hrp
            exact ih _ _ (addConstraint constraints req) _ result cF
              (inv_after_insert resolved constraints req pkg hinv hres hname hmatch) h
      · rw [hres] at h
        dsimp only at h
        rcases hv : verifyConstraints pkg (addConstraint constraints req req.name)
          with e | u
        · rw [hv] at h; cases h
        · rw [hv] at h
          have hok : MatchesAll pkg.version (addConstraint constraints req req.name) =
              .ok true := by
            unfold verifyConstraints at hv
            rcases hm : MatchesAll pkg.version (addConstraint constraints req req.name)
              with e' | b
            · rw [hm] at hv; cases hv
            · rw [hm] at hv
              cases b with
              | true => rfl
              | false => cases hv
          exact ih rest resolved (addConstraint constraints req) processing result cF
            (inv_after_verify resolved constraints req pkg hinv hres hok) h

/-- C1: (link) `Resolve` runs the loop from the empty state; (invariant)
for every successful run, every returned package's chosen version satisfies
the conjunction (`MatchesAll`) of all specifiers dequeued for its name
during the walk; (conflict) whenever a dequeued requirement names an
already-resolved package whose chosen version fails the accumulated
constraints, the loop stops with the version-conflict error carrying the
package name, the chosen version, and the full constraint list. -/
theorem C1_resolve_constraints (g : String → Except String PackageInfo)
    (gv : String → String → Except String PackageInfo) (env : MarkerEnv) (noDeps : Bool) :
    (∀ fuel (requirements : List String),
      Resolve g gv env noDeps fuel requirements =
        (resolveLoopAux g gv env noDeps fuel (requirements.map ParseRequirement)
          [] (fun _ => []) (fun _ => false)).map (·.1)) ∧
    (∀ fuel (queue : List Requirement),
      match resolveLoopAux g gv env noDeps fuel queue [] (fun _ => []) (fun _ => false) with
      | .ok (result, cF) =>
        ∀ pkg ∈ result, MatchesAll pkg.version (cF pkg.name) = .ok true
      | .error _ => True) ∧
    (∀ fuel (req : Requirement) (rest : List Requirement) resolved constraints processing
        (pkg : ResolvedPackage),
      lookupA resolved req.name = some pkg →
      MatchesAll pkg.version (addConstraint constraints req req.name) = .ok false →
      resolveLoopAux g gv env noDeps (fuel + 1) (req :: rest) resolved constraints processing =
        .error (.versionConflict pkg.name pkg.version
          (addConstraint constraints req req.name))) := by
  refine ⟨fun _ _ => rfl, ?_, ?_⟩
  · intro fuel queue
    rcases hrun : resolveLoopAux g gv env noDeps fuel queue [] (fun _ => []) (fun _ => false)
      with e | rc
    · exact trivial
    · obtain ⟨result, cF⟩ := rc
      exact resolveLoop_inv g gv env noDeps fuel queue [] (fun _ => []) (fun _ => false)
        result cF ⟨List.nodup_nil, by intro p hp; simp at hp⟩ hrun
  · intro fuel req rest resolved constraints processing pkg hres hfail
    have hv : verifyConstraints pkg (addConstraint constraints req req.name) =
        .error (.versionConflict pkg.name pkg.version
          (addConstraint constraints req req.name)) := by
      unfold verifyConstraints
      rw [hfail]
    simp only [resolveLoopAux, hres, hv]

/-- A release file for the concrete resolver run. -/
def fileC1 : PyURL :=
  { PyURL.zero with filename := "a-1.0-py3-none-any.whl", packageType := "bdist_wheel" }

/-- Metadata of the single package `a` for the concrete resolver run. -/
def infoC1 : PackageInfo :=
  { info := { version := "1.0", requiresDist := [] }
    urls := [fileC1]
    releases := [("1.0", [fileC1])] }

/-- A one-package index client. -/
def getPkgC1 : String → Except String PackageInfo :=
  fun n => if n = "a" then .ok infoC1 else .error "package not found"

/-- Its per-version variant. -/
def getVerC1 : String → String → Except String PackageInfo :=
  fun n _ => getPkgC1 n

/-- The package `a 1.0` as resolved. -/
def pkgC1 : ResolvedPackage := { name := "a", version := "1.0", dependencies := [] }

/-- Witness for `C1_resolve_constraints`: a concrete successful run whose
chosen version satisfies its accumulated constraint, and a concrete
dequeue hitting an already-resolved package with a failing specifier that
stops with the version-conflict error. -/
theorem C1_resolve_constraints_witness :
    MatchesAll "1.0" [">=0.5"] = .ok true ∧
    resolveLoopAux getPkgC1 getVerC1 envC6 false 1
      [{ name := "a", specifier := "<0.9", marker := "" }]
      [("a", pkgC1)] (fun _ => [">=0.5"]) (fun _ => true) =
      .error (.versionConflict "a" "1.0" [">=0.5", "<0.9"]) := by
  constructor
  · have hrun := (C1_resolve_constraints getPkgC1 getVerC1 envC6 false).2.1 2
      [ParseRequirement "a>=0.5"]
    exact hrun pkgC1 (List.mem_singleton.mpr rfl)
  · exact (C1_resolve_constraints getPkgC1 getVerC1 envC6 false).2.2 0
      { name := "a", specifier := "<0.9", marker := "" } []
      [("a", pkgC1)] (fun _ => [">=0.5"]) (fun _ => true) pkgC1 rfl rfl

end Pipg
